import Mathlib

/-!
# Verification of the go-archive specification

A shallow embedding of the tar pack / unpack / layer-application engine of the
`go-archive` repository, together with proofs about the claims of its
specification.

The repository ships the implementation's test-suite and the `chrootarchive`
wrapper; the core packer/unpacker (`TarWithOptions`, `Untar`, `UnpackLayer`,
`ChangesDirs`, `ExportChanges`) is not part of the given sources, so those
operations are modelled from the specification (each such definition carries a
doc comment starting with `Modelled from the spec:`).  `resolvePathInChroot`
in `chrootarchive/archive.go` is embedded directly from the source, on top of
a model of Go's `path/filepath` (`Clean`, `Rel`) for Unix.

Conventions of the embedding:
* a filesystem path is a list of name components (`Path`), relative to the
  filesystem root; tar entry names are also component lists, in which the
  normalization components `""`, `"."` and `".."` may still occur;
* a filesystem is a finite association list from paths to nodes (`Fs`);
* machine-level aspects that the claims do not touch (mtimes, xattrs, device
  nodes, actual file contents beyond their size) are omitted, as are the
  symlink-following path walks of the syscall layer: path resolution is the
  lexical resolution that the unpacker's breakout checks perform.
-/

namespace GoArchive

/-- A filesystem path: a list of name components, relative to the root of the
modelled filesystem. -/
abbrev Path := List String

/-- Owner and permission metadata carried by every filesystem node. -/
structure Meta where
  mode : Nat
  uid : Nat
  gid : Nat
  deriving DecidableEq, Repr

/-- A filesystem node: regular file (with size and inode number), directory,
or symbolic link (target stored verbatim as components). -/
inductive FNode where
  | file (m : Meta) (size : Nat) (ino : Nat)
  | dir (m : Meta)
  | symlink (m : Meta) (target : List String)
  deriving DecidableEq, Repr

/-- A filesystem: an association list from paths to nodes.  The packer walks
it in list order, so for a well-formed tree the list is sorted
lexicographically with parents before children. -/
abbrev Fs := List (Path × FNode)

/-- Tar entry type flags (§6 of the spec). -/
inductive TypeFlag where
  | reg
  | link
  | symlink
  | chr
  | blk
  | dir
  | fifo
  | xGlobalHeader
  deriving DecidableEq, Repr

/-- A tar header/entry as the engine sees it.  Names and linknames are kept as
component lists (the result of splitting the slash-separated tar name), in
which `""`, `"."` and `".."` components may still occur. -/
structure Entry where
  name : List String
  typeflag : TypeFlag
  linkname : List String := []
  mode : Nat := 0
  uid : Nat := 0
  gid : Nat := 0
  size : Nat := 0
  deriving DecidableEq, Repr

/-- The abstract error kinds of §7 of the spec. -/
inductive ArchiveError where
  | breakout
  | invalidHardlink
  | tooManySymlinks
  | invalidDestination
  | invalidSource
  | format
  | io
  deriving DecidableEq, Repr

/-! ## Path resolution (the path safety kernel, §4.A / §4.E step 2)

`resolveComps` walks the components of an entry name, maintaining the stack of
components relative to the destination: `"."` and empty components are
skipped, `".."` pops the stack, and popping past the destination root is the
breakout case. -/

/-- Modelled from the spec: the lexical part of the path kernel's resolution
(§4.A): walk the name component by component; `.` and empty components are
skipped, `..` pops the logical stack, and a `..` that would pop past the
root fails with the breakout error (§4.E step 2). -/
def resolveComps : List String → List String → Except ArchiveError (List String)
  | stack, [] => .ok stack
  | stack, c :: rest =>
    if c = "" ∨ c = "." then resolveComps stack rest
    else if c = ".." then
      if stack.isEmpty then .error .breakout
      else resolveComps stack.dropLast rest
    else resolveComps (stack ++ [c]) rest

/-- Resolve an entry name against the destination: the name escapes the
destination exactly when `resolveComps` reports a breakout. -/
def resolveSub (name : List String) : Except ArchiveError (List String) :=
  resolveComps [] name

/-- A name is escaping when, after normalization, a `..` component pops past
the destination root. -/
def escapes (name : List String) : Bool :=
  match resolveSub name with
  | .error _ => true
  | .ok _ => false

/-! ## Filesystem operations -/

/-- Look a path up in a filesystem. -/
def fsFind : Fs → Path → Option FNode
  | [], _ => none
  | (q, n) :: rest, p => if p = q then some n else fsFind rest p

/-- Insert (or replace) a node.  A fresh path is appended at the end, so
walk order of freshly created trees follows creation order. -/
def insertNode : Fs → Path → FNode → Fs
  | [], p, n => [(p, n)]
  | (q, m) :: rest, p, n =>
    if p = q then (q, n) :: rest else (q, m) :: insertNode rest p n

/-- Remove the subtree rooted at `p` (the node itself and everything under
it), mirroring `os.RemoveAll`. -/
def removeSubtree (fs : Fs) (p : Path) : Fs :=
  fs.filter fun qn => !(p.isPrefixOf qn.1)

/-- The paths present in a filesystem. -/
def fsKeys (fs : Fs) : List Path := fs.map Prod.fst

theorem insertNode_fresh (fs : Fs) (p : Path) (n : FNode) (h : fsFind fs p = none) :
    insertNode fs p n = fs ++ [(p, n)] := by
  induction fs with
  | nil => simp [insertNode]
  | cons hd tl ih =>
    obtain ⟨q, m⟩ := hd
    by_cases hq : p = q
    · simp [fsFind, hq] at h
    · simp [fsFind, hq] at h
      simp [insertNode, hq, ih h]

theorem fsFind_insertNode (fs : Fs) (p : Path) (n : FNode) (q : Path) :
    fsFind (insertNode fs p n) q = if q = p then some n else fsFind fs q := by
  induction fs with
  | nil =>
    by_cases h : q = p
    · simp [insertNode, fsFind, h]
    · simp [insertNode, fsFind, h]
  | cons hd tl ih =>
    obtain ⟨r, m⟩ := hd
    by_cases hp : p = r
    · subst hp
      by_cases h : q = p <;> simp [insertNode, fsFind, h]
    · by_cases h : q = r
      · subst h
        have hp' : ¬q = p := fun hqp => hp (hqp ▸ rfl)
        simp [insertNode, fsFind, hp, hp']
      · simp [insertNode, fsFind, hp, h, ih]

theorem fsFind_removeSubtree (fs : Fs) (p : Path) (q : Path) :
    fsFind (removeSubtree fs p) q =
      if p.isPrefixOf q then none else fsFind fs q := by
  induction fs with
  | nil => simp [removeSubtree, fsFind]
  | cons hd tl ih =>
    obtain ⟨r, m⟩ := hd
    by_cases hpr : p.isPrefixOf r
    · by_cases h : q = r
      · subst h
        simp [removeSubtree, fsFind, hpr] at ih ⊢
        simp [ih, hpr]
      · simp only [removeSubtree, List.filter] at ih ⊢
        simp [hpr, fsFind, h, ih]
    · by_cases h : q = r
      · subst h
        simp only [removeSubtree, List.filter] at ih ⊢
        simp [hpr, fsFind]
      · simp only [removeSubtree, List.filter] at ih ⊢
        simp [hpr, fsFind, h, ih]

/-! ## Options and ownership (§3, §6) -/

/-- The per-entry ownership override (§3 ChownOpts). -/
structure ChownOpts where
  uid : Nat
  gid : Nat
  deriving DecidableEq, Repr

/-- One range of a user-namespace ID map (§3): container ids
`[containerID, containerID+count)` correspond to host ids
`[hostID, hostID+count)`. -/
structure IdMapEntry where
  containerID : Nat
  hostID : Nat
  count : Nat
  deriving DecidableEq, Repr

/-- Modelled from the spec: translate a container id to a host id through an
ID map (§3); ids outside every range are passed through unchanged (the
claims under verification never exercise the out-of-range case). -/
def mapToHost (maps : List IdMapEntry) (u : Nat) : Nat :=
  match maps.find? (fun e => e.containerID ≤ u && u < e.containerID + e.count) with
  | some e => e.hostID + (u - e.containerID)
  | none => u

/-- Modelled from the spec: translate a host id to a container id through an
ID map (§3); ids outside every range are passed through unchanged. -/
def mapToContainer (maps : List IdMapEntry) (u : Nat) : Nat :=
  match maps.find? (fun e => e.hostID ≤ u && u < e.hostID + e.count) with
  | some e => e.containerID + (u - e.hostID)
  | none => u

/-- The default mode for parent directories synthesized during unpack
(§4.B "Implied directory mode"). -/
def ImpliedDirectoryMode : Nat := 0o755

/-- The `TarOptions` surface of §6, restricted to the fields the claims
exercise. -/
structure TarOptions where
  chownOpts : Option ChownOpts := none
  uidMaps : List IdMapEntry := []
  gidMaps : List IdMapEntry := []
  noLchown : Bool := false
  noOverwriteDirNonDir : Bool := false
  impliedDirMode : Nat := ImpliedDirectoryMode
  includeFiles : List (List String) := []
  excludePatterns : List (List String) := []
  rebaseNames : List (List String × List String) := []
  deriving DecidableEq, Repr

/-- `Untar(r, dest, nil)` runs with all-default options. -/
def defaultOptions : TarOptions := {}

/-- Modelled from the spec: ownership applied on extraction (§4.E step 5):
`ChownOpts` wins; otherwise the ID map translates the header owner; otherwise
the header owner is used verbatim. -/
def extractOwner (opts : TarOptions) (e : Entry) : Nat × Nat :=
  match opts.chownOpts with
  | some c => (c.uid, c.gid)
  | none => (mapToHost opts.uidMaps e.uid, mapToHost opts.gidMaps e.gid)

/-- A fresh inode number for a newly created regular file. -/
def freshIno (fs : Fs) : Nat :=
  (fs.map fun qn =>
    match qn.2 with
    | .file _ _ i => i
    | _ => 0).foldr max 0 + 1

/-! ## The unpacker (§4.E) -/

/-- The node used for a synthesized parent directory: implied-directory mode,
owned by the ID-map root pair (§4.E step 3). -/
def impliedDir (opts : TarOptions) : FNode :=
  .dir ⟨opts.impliedDirMode, mapToHost opts.uidMaps 0, mapToHost opts.gidMaps 0⟩

/-- Modelled from the spec: §4.E step 3 — create any missing parent
directories of the entry with the configured implied-directory mode, owned by
the ID-map root pair; parents that already exist are left untouched.  `base`
starts at the destination and the final component (the entry itself) is not a
parent. -/
def mkParents (opts : TarOptions) (fs : Fs) (base : Path) : List String → Fs
  | [] => fs
  | c :: rest =>
    if rest = [] then fs
    else
      mkParents opts
        (if (fsFind fs (base ++ [c])).isSome then fs
         else insertNode fs (base ++ [c]) (impliedDir opts))
        (base ++ [c]) rest

/-- Modelled from the spec: §4.E step 4 — dispatch on the entry kind, after
the name has been resolved to the relative stack `rel` and parents have been
created.  Hardlinks follow rules H1–H4 (violations are `ErrInvalidHardlink`,
§7); symlink targets that would lexically escape the destination are refused
as in the breakout tests; device and FIFO entries are skipped (the
unprivileged case of §4.E step 4). -/
def dispatchEntry (opts : TarOptions) (dest : Path) (fs : Fs) (rel : List String)
    (e : Entry) : Except ArchiveError Fs :=
  let p := dest ++ rel
  let ow := extractOwner opts e
  match e.typeflag with
  | .dir =>
    match fsFind fs p with
    | some (.dir _) => .ok (insertNode fs p (.dir ⟨e.mode, ow.1, ow.2⟩))
    | some _ =>
      if opts.noOverwriteDirNonDir then .error .invalidDestination
      else .ok (insertNode fs p (.dir ⟨e.mode, ow.1, ow.2⟩))
    | none => .ok (insertNode fs p (.dir ⟨e.mode, ow.1, ow.2⟩))
  | .reg =>
    match fsFind fs p with
    | some (.dir _) =>
      if opts.noOverwriteDirNonDir then .error .invalidDestination
      else .ok (insertNode (removeSubtree fs p) p
          (.file ⟨e.mode, ow.1, ow.2⟩ e.size (freshIno fs)))
    | _ => .ok (insertNode fs p (.file ⟨e.mode, ow.1, ow.2⟩ e.size (freshIno fs)))
  | .symlink =>
    match resolveComps rel.dropLast e.linkname with
    | .error _ => .error .breakout
    | .ok _ => .ok (insertNode fs p (.symlink ⟨e.mode, ow.1, ow.2⟩ e.linkname))
  | .link =>
    match resolveComps [] e.linkname with
    | .error _ => .error .invalidHardlink
    | .ok srcRel =>
      match fsFind fs (dest ++ srcRel) with
      | some (.file m sz i) => .ok (insertNode fs p (.file m sz i))
      | some _ => .error .invalidHardlink
      | none => .error .invalidHardlink
  | .chr => .ok fs
  | .blk => .ok fs
  | .fifo => .ok fs
  | .xGlobalHeader => .ok fs

/-- Modelled from the spec: processing of one tar entry by the unpacker
(§4.E): skip PAX global headers entirely (step 1), resolve the name against
the destination failing with the breakout error on escaping names (step 2),
create missing parents (step 3), then dispatch on the entry kind
(steps 4–6). -/
def untarStep (opts : TarOptions) (dest : Path) (fs : Fs) (e : Entry) :
    Except ArchiveError Fs :=
  if e.typeflag = .xGlobalHeader then .ok fs
  else
    match resolveSub e.name with
    | .error err => .error err
    | .ok rel => dispatchEntry opts dest (mkParents opts fs dest rel) rel e

/-- Modelled from the spec: `Untar` — consume the entries in order; a safety
or I/O error aborts immediately, leaving the prefix of entries materialized
(§7 partial application). -/
def untarRun (opts : TarOptions) (dest : Path) : Fs → List Entry → Fs × Option ArchiveError
  | fs, [] => (fs, none)
  | fs, e :: rest =>
    match untarStep opts dest fs e with
    | .error err => (fs, some err)
    | .ok fs' => untarRun opts dest fs' rest

theorem fsFind_insert_other {fs : Fs} {p q : Path} {n : FNode} (h : q ≠ p) :
    fsFind (insertNode fs p n) q = fsFind fs q := by
  rw [fsFind_insertNode, if_neg h]

theorem fsFind_removeSubtree_other {fs : Fs} {p q : Path} (h : ¬ p <+: q) :
    fsFind (removeSubtree fs p) q = fsFind fs q := by
  rw [fsFind_removeSubtree, if_neg]
  simpa [List.isPrefixOf_iff_prefix] using h

/-- The resolution walk only ever fails with the breakout error. -/
theorem resolveComps_error (stack name : List String) (err : ArchiveError)
    (h : resolveComps stack name = .error err) : err = .breakout := by
  induction name generalizing stack with
  | nil => simp [resolveComps] at h
  | cons c rest ih =>
    simp only [resolveComps] at h
    split at h
    · exact ih _ h
    · split at h
      · split at h
        · cases h; rfl
        · exact ih _ h
      · exact ih _ h

/-- PAX global header entries are skipped entirely by the entry step. -/
theorem untarStep_xGlobal (opts : TarOptions) (dest : Path) (fs : Fs) (e : Entry)
    (he : e.typeflag = .xGlobalHeader) :
    untarStep opts dest fs e = .ok fs := by
  simp [untarStep, he]

/-- A non-global-header entry whose name escapes the destination fails the
step with the breakout error, whatever its kind. -/
theorem untarStep_escapes (opts : TarOptions) (dest : Path) (fs : Fs) (e : Entry)
    (hg : e.typeflag ≠ .xGlobalHeader) (he : escapes e.name = true) :
    untarStep opts dest fs e = .error .breakout := by
  rw [untarStep, if_neg hg]
  unfold escapes at he
  cases hres : resolveSub e.name with
  | error err =>
    have := resolveComps_error [] e.name err hres
    subst this
    simp [hres]
  | ok rel => rw [hres] at he; simp at he

/-- `mkParents` never deletes or overwrites an existing node. -/
theorem fsFind_mkParents_mono (opts : TarOptions) (comps : List String) :
    ∀ (fs : Fs) (base : Path) (q : Path) (n : FNode),
      fsFind fs q = some n → fsFind (mkParents opts fs base comps) q = some n := by
  induction comps with
  | nil => intro fs base q n h; simpa [mkParents] using h
  | cons c rest ih =>
    intro fs base q n h
    simp only [mkParents]
    split
    · exact h
    · apply ih
      split
      · exact h
      · rename_i hnone
        rw [fsFind_insertNode]
        split
        · rename_i hq
          rw [hq] at h
          simp [h] at hnone
        · exact h

/-- `mkParents` touches only proper extensions of `base`. -/
theorem fsFind_mkParents_other (opts : TarOptions) (comps : List String) :
    ∀ (fs : Fs) (base : Path) (q : Path), ¬ base <+: q →
      fsFind (mkParents opts fs base comps) q = fsFind fs q := by
  induction comps with
  | nil => intro fs base q _; simp [mkParents]
  | cons c rest ih =>
    intro fs base q hq
    simp only [mkParents]
    split
    · rfl
    · have hq' : ¬ (base ++ [c]) <+: q := fun h =>
        hq ((List.prefix_append base [c]).trans h)
      rw [ih _ _ _ hq']
      split
      · rfl
      · exact fsFind_insert_other (fun h => hq' (h ▸ List.prefix_rfl))

/-- Characterization of the parents synthesized by `mkParents`: every proper
prefix of the entry path that was missing is created as a directory with the
implied-directory node, and every prefix that was present is untouched. -/
theorem fsFind_mkParents_take (opts : TarOptions) (comps : List String) :
    ∀ (fs : Fs) (base : Path) (k : Nat), 0 < k → k < comps.length →
      fsFind (mkParents opts fs base comps) (base ++ comps.take k) =
        match fsFind fs (base ++ comps.take k) with
        | some n => some n
        | none => some (impliedDir opts) := by
  induction comps with
  | nil =>
    intro fs base k h1 h2
    simp at h2
  | cons c rest ih =>
    intro fs base k h1 h2
    have hrest : rest ≠ [] := by
      intro h
      subst h
      simp at h2
      omega
    simp only [mkParents, if_neg hrest]
    match k, h1, h2 with
    | 1, _, _ =>
      have htake : base ++ (c :: rest).take 1 = base ++ [c] := by simp
      rw [htake]
      by_cases hf : (fsFind fs (base ++ [c])).isSome
      · rw [if_pos hf]
        obtain ⟨n, hn⟩ := Option.isSome_iff_exists.mp hf
        rw [hn, fsFind_mkParents_mono opts rest _ _ _ _ hn]
      · rw [if_neg hf]
        have hnone : fsFind fs (base ++ [c]) = none :=
          Option.not_isSome_iff_eq_none.mp hf
        have hins : fsFind (insertNode fs (base ++ [c]) (impliedDir opts))
            (base ++ [c]) = some (impliedDir opts) := by
          rw [fsFind_insertNode, if_pos rfl]
        rw [hnone, fsFind_mkParents_mono opts rest _ _ _ _ hins]
    | (k + 2), _, h2 =>
      have htake : base ++ (c :: rest).take (k + 2) = (base ++ [c]) ++ rest.take (k + 1) := by
        simp [List.take_succ_cons]
      have hk1 : k + 1 < rest.length := by
        simp at h2
        omega
      have hne : (base ++ [c]) ++ rest.take (k + 1) ≠ base ++ [c] := by
        intro h
        have hlen := congrArg List.length h
        rw [List.length_append, List.length_take] at hlen
        omega
      have hfs1 : fsFind
          (if (fsFind fs (base ++ [c])).isSome then fs
           else insertNode fs (base ++ [c]) (impliedDir opts))
          ((base ++ [c]) ++ rest.take (k + 1)) =
            fsFind fs ((base ++ [c]) ++ rest.take (k + 1)) := by
        split
        · rfl
        · exact fsFind_insert_other hne
      rw [htake, ih _ (base ++ [c]) (k + 1) (by omega) hk1, hfs1]

/-- The dispatch step touches only the entry's own path and (for a regular
file replacing a directory) the subtree below it: every path that does not
extend the entry's resolved path is untouched. -/
theorem dispatchEntry_find_other (opts : TarOptions) (dest : Path) (fs : Fs)
    (rel : List String) (e : Entry) (fs' : Fs)
    (hok : dispatchEntry opts dest fs rel e = .ok fs')
    (q : Path) (hq : ¬ (dest ++ rel) <+: q) :
    fsFind fs' q = fsFind fs q := by
  have hqp : q ≠ dest ++ rel := fun h => hq (h ▸ List.prefix_rfl)
  cases htf : e.typeflag <;> simp only [dispatchEntry, htf] at hok <;>
    (repeat' split at hok) <;>
    (try cases hok) <;>
    first
      | rfl
      | rw [fsFind_insert_other hqp, fsFind_removeSubtree_other hq]
      | rw [fsFind_insert_other hqp]

/-- A successful unpack step leaves every path that does not extend the
destination untouched: nothing is ever created outside the destination. -/
theorem untarStep_outside (opts : TarOptions) (dest : Path) (fs : Fs) (e : Entry)
    (fs' : Fs) (hok : untarStep opts dest fs e = .ok fs')
    (q : Path) (hq : ¬ dest <+: q) :
    fsFind fs' q = fsFind fs q := by
  unfold untarStep at hok
  split at hok
  · cases hok; rfl
  · cases hres : resolveSub e.name with
    | error err => rw [hres] at hok; cases hok
    | ok rel =>
      rw [hres] at hok
      have hq' : ¬ (dest ++ rel) <+: q := fun h =>
        hq ((List.prefix_append dest rel).trans h)
      rw [dispatchEntry_find_other opts dest _ rel e fs' hok q hq',
        fsFind_mkParents_other opts rel fs dest q hq]

/-- Whatever entries an unpack run processes before stopping, every path that
does not extend the destination is untouched. -/
theorem untarRun_outside (opts : TarOptions) (dest : Path) :
    ∀ (entries : List Entry) (fs : Fs) (q : Path), ¬ dest <+: q →
      fsFind (untarRun opts dest fs entries).1 q = fsFind fs q := by
  intro entries
  induction entries with
  | nil => intro fs q _; rfl
  | cons e rest ih =>
    intro fs q hq
    simp only [untarRun]
    cases hstep : untarStep opts dest fs e with
    | error err => rfl
    | ok fs' =>
      rw [ih fs' q hq, untarStep_outside opts dest fs e fs' hstep q hq]

theorem untarRun_append (opts : TarOptions) (dest : Path) (fs : Fs)
    (xs ys : List Entry) :
    untarRun opts dest fs (xs ++ ys) =
      match untarRun opts dest fs xs with
      | (fs', none) => untarRun opts dest fs' ys
      | (fs', some err) => (fs', some err) := by
  induction xs generalizing fs with
  | nil => simp [untarRun]
  | cons e rest ih =>
    simp only [List.cons_append, untarRun]
    cases untarStep opts dest fs e with
    | error err => simp
    | ok fs' => simpa using ih fs'

/-- The step refusal behind hardlink rule H3: a hardlink entry whose resolved
linkname names a symlink in the current state fails with
`ErrInvalidHardlink`. -/
theorem untarStep_link_symlink (opts : TarOptions) (dest : Path) (fs : Fs) (e : Entry)
    (rel srcRel : List String) (m : Meta) (tgt : List String)
    (htf : e.typeflag = TypeFlag.link)
    (hname : resolveSub e.name = .ok rel)
    (hlink : resolveComps [] e.linkname = .ok srcRel)
    (hsrc : fsFind fs (dest ++ srcRel) = some (.symlink m tgt)) :
    untarStep opts dest fs e = .error .invalidHardlink := by
  rw [untarStep, if_neg (by simp [htf]), hname]
  have hsrc' : fsFind (mkParents opts fs dest rel) (dest ++ srcRel) =
      some (.symlink m tgt) :=
    fsFind_mkParents_mono opts rel fs dest _ _ hsrc
  simp [dispatchEntry, htf, hlink, hsrc']

/-- A successfully applied explicit directory entry leaves its target with
exactly the header's mode (and the resolved ownership). -/
theorem dispatchEntry_dir (opts : TarOptions) (dest : Path) (fs : Fs)
    (rel : List String) (e : Entry) (fs' : Fs)
    (htf : e.typeflag = TypeFlag.dir)
    (hok : dispatchEntry opts dest fs rel e = .ok fs') :
    fsFind fs' (dest ++ rel) =
      some (.dir ⟨e.mode, (extractOwner opts e).1, (extractOwner opts e).2⟩) := by
  simp only [dispatchEntry, htf] at hok
  repeat' split at hok
  all_goals try cases hok
  all_goals rw [fsFind_insertNode, if_pos rfl]

/-- An unpack run over a stream containing a non-global-header entry with an
escaping name never succeeds. -/
theorem untarRun_fails_of_escape (opts : TarOptions) (dest : Path) :
    ∀ (entries : List Entry) (fs : Fs),
      (∃ e ∈ entries, e.typeflag ≠ TypeFlag.xGlobalHeader ∧ escapes e.name = true) →
      (untarRun opts dest fs entries).2.isSome = true := by
  intro entries
  induction entries with
  | nil => intro fs h; simp at h
  | cons a rest ih =>
    intro fs h
    obtain ⟨e, he, hg, hesc⟩ := h
    simp only [untarRun]
    rcases List.mem_cons.mp he with rfl | hmem
    · rw [untarStep_escapes opts dest fs e hg hesc]
      rfl
    · cases hstep : untarStep opts dest fs a with
      | error err => rfl
      | ok fs' => exact ih fs' ⟨e, hmem, hg, hesc⟩

/-! ## The layer applier (§4.E step 7, §4.H) -/

/-- The aufs whiteout prefix. -/
def whPrefix : String := ".wh."

/-- The opaque-directory marker basename. -/
def whOpaque : String := ".wh..wh..opq"

/-- Whether a basename is a whiteout marker (character-level prefix test). -/
def isWhiteout (b : String) : Bool := whPrefix.data.isPrefixOf b.data

/-- The sibling name a `.wh.<name>` marker deletes. -/
def whTarget (b : String) : String := ⟨b.data.drop whPrefix.data.length⟩

/-- Modelled from the spec: one entry step of the layer applier (§4.E step 7,
§4.H): global headers are skipped; the name is resolved with the breakout
check and missing parents are created; then a basename `.wh..wh..opq`
removes every existing child of its directory that this layer has not itself
unpacked, a basename `.wh.<name>` removes the sibling subtree `<name>`,
neither marker is materialized (the state at the marker's own path is
untouched), and any other entry is dispatched as in `untarStep`, recording
its resolved path in the layer's unpacked set. -/
def unpackLayerStep (opts : TarOptions) (dest : Path) (fs : Fs)
    (unpacked : List Path) (e : Entry) :
    Except ArchiveError (Fs × List Path) :=
  if e.typeflag = .xGlobalHeader then .ok (fs, unpacked)
  else
    match resolveSub e.name with
    | .error err => .error err
    | .ok stack =>
      let fs₁ := mkParents opts fs dest stack
      let p := dest ++ stack
      match stack.getLast? with
      | some b =>
        if b = whOpaque then
          .ok (fs₁.filter fun qn =>
            !(decide (p.dropLast <+: qn.1) && !(decide (qn.1 = p.dropLast)) &&
              !(decide (qn.1 ∈ unpacked))), unpacked)
        else if isWhiteout b then
          .ok (removeSubtree fs₁ (p.dropLast ++ [whTarget b]), unpacked)
        else
          match dispatchEntry opts dest fs₁ stack e with
          | .error err => .error err
          | .ok fs' => .ok (fs', p :: unpacked)
      | none =>
        match dispatchEntry opts dest fs₁ stack e with
        | .error err => .error err
        | .ok fs' => .ok (fs', p :: unpacked)

/-- Modelled from the spec: `UnpackLayer` — apply the entries of one layer in
order, starting with an empty unpacked set, aborting on the first error. -/
def unpackLayerRun (opts : TarOptions) (dest : Path) :
    Fs → List Path → List Entry → (Fs × List Path) × Option ArchiveError
  | fs, up, [] => ((fs, up), none)
  | fs, up, e :: rest =>
    match unpackLayerStep opts dest fs up e with
    | .error err => ((fs, up), some err)
    | .ok (fs', up') => unpackLayerRun opts dest fs' up' rest

/-- Lookup through a filter whose predicate depends only on the key. -/
theorem fsFind_filter_key (g : Path → Bool) (fs : Fs) (q : Path) :
    fsFind (fs.filter fun qn => g qn.1) q =
      if g q = true then fsFind fs q else none := by
  induction fs with
  | nil => simp [fsFind]
  | cons hd tl ih =>
    obtain ⟨r, m⟩ := hd
    by_cases hgr : g r = true
    · by_cases h : q = r
      · subst h
        simp only [List.filter, hgr, fsFind]
        simp [fsFind, hgr]
      · simp only [List.filter, hgr, fsFind]
        simp [fsFind, h, ih]
    · have hgr' : g r = false := by simpa using hgr
      by_cases h : q = r
      · subst h
        simp only [List.filter, hgr']
        simp [ih, hgr']
      · simp only [List.filter, hgr']
        simp [fsFind, h, ih]

/-- A layer-application step refuses an escaping name (other than a global
header) with the breakout error, exactly as the plain unpack step does. -/
theorem unpackLayerStep_escapes (opts : TarOptions) (dest : Path) (fs : Fs)
    (up : List Path) (e : Entry)
    (hg : e.typeflag ≠ .xGlobalHeader) (he : escapes e.name = true) :
    unpackLayerStep opts dest fs up e = .error .breakout := by
  rw [unpackLayerStep, if_neg hg]
  unfold escapes at he
  cases hres : resolveSub e.name with
  | error err =>
    have := resolveComps_error [] e.name err hres
    subst this
    simp [hres]
  | ok rel => rw [hres] at he; simp at he

/-- A successful layer-application step leaves every path that does not
extend the destination untouched: parent synthesis, whiteout removal, opaque
removal and dispatch all act strictly inside the destination. -/
theorem unpackLayerStep_outside (opts : TarOptions) (dest : Path) (fs : Fs)
    (up : List Path) (e : Entry) (fs' : Fs) (up' : List Path)
    (hok : unpackLayerStep opts dest fs up e = .ok (fs', up'))
    (q : Path) (hq : ¬ dest <+: q) :
    fsFind fs' q = fsFind fs q := by
  unfold unpackLayerStep at hok
  split at hok
  · cases hok; rfl
  · cases hres : resolveSub e.name with
    | error err => rw [hres] at hok; cases hok
    | ok stack =>
      rw [hres] at hok
      simp only at hok
      cases hlast : stack.getLast? with
      | none =>
        rw [hlast] at hok
        simp only at hok
        cases hdisp : dispatchEntry opts dest (mkParents opts fs dest stack) stack e with
        | error err => rw [hdisp] at hok; cases hok
        | ok fs₂ =>
          rw [hdisp] at hok
          cases hok
          rw [dispatchEntry_find_other opts dest _ stack e _ hdisp q
            (fun h => hq ((List.prefix_append dest stack).trans h)),
            fsFind_mkParents_other opts stack fs dest q hq]
      | some b =>
        rw [hlast] at hok
        simp only at hok
        have hpre : dest <+: (dest ++ stack).dropLast := by
          rcases List.eq_nil_or_concat stack with hnil | ⟨l, a, hcat⟩
          · subst hnil; simp at hlast
          · subst hcat
            rw [List.concat_eq_append, ← List.append_assoc, List.dropLast_concat]
            exact List.prefix_append dest l
        by_cases hb : b = whOpaque
        · rw [if_pos hb] at hok
          cases hok
          rw [fsFind_filter_key (fun r =>
            !(decide ((dest ++ stack).dropLast <+: r) &&
              !(decide (r = (dest ++ stack).dropLast)) && !(decide (r ∈ up))))
            (mkParents opts fs dest stack) q]
          have hnp : ¬ (dest ++ stack).dropLast <+: q := fun h => hq (hpre.trans h)
          rw [if_pos (by simp [hnp])]
          exact fsFind_mkParents_other opts stack fs dest q hq
        · rw [if_neg hb] at hok
          by_cases hw : isWhiteout b = true
          · rw [if_pos hw] at hok
            cases hok
            have hnp : ¬ ((dest ++ stack).dropLast ++ [whTarget b]) <+: q := fun h =>
              hq (hpre.trans ((List.prefix_append _ _).trans h))
            rw [fsFind_removeSubtree_other hnp,
              fsFind_mkParents_other opts stack fs dest q hq]
          · rw [if_neg hw] at hok
            cases hdisp : dispatchEntry opts dest (mkParents opts fs dest stack) stack e with
            | error err => rw [hdisp] at hok; cases hok
            | ok fs₂ =>
              rw [hdisp] at hok
              cases hok
              rw [dispatchEntry_find_other opts dest _ stack e _ hdisp q
                (fun h => hq ((List.prefix_append dest stack).trans h)),
                fsFind_mkParents_other opts stack fs dest q hq]

/-- Whatever entries a layer application processes before stopping, every
path that does not extend the destination is untouched. -/
theorem unpackLayerRun_outside (opts : TarOptions) (dest : Path) :
    ∀ (entries : List Entry) (fs : Fs) (up : List Path) (q : Path), ¬ dest <+: q →
      fsFind (unpackLayerRun opts dest fs up entries).1.1 q = fsFind fs q := by
  intro entries
  induction entries with
  | nil => intro fs up q _; rfl
  | cons e rest ih =>
    intro fs up q hq
    simp only [unpackLayerRun]
    cases hstep : unpackLayerStep opts dest fs up e with
    | error err => rfl
    | ok r =>
      obtain ⟨fs', up'⟩ := r
      rw [ih fs' up' q hq,
        unpackLayerStep_outside opts dest fs up e fs' up' hstep q hq]

/-- A layer application over a stream containing an escaping non-global
entry always reports an error. -/
theorem unpackLayerRun_fails_of_escape (opts : TarOptions) (dest : Path) :
    ∀ (entries : List Entry) (fs : Fs) (up : List Path),
      (∃ e ∈ entries, e.typeflag ≠ TypeFlag.xGlobalHeader ∧ escapes e.name = true) →
      (unpackLayerRun opts dest fs up entries).2.isSome = true := by
  intro entries
  induction entries with
  | nil => intro fs up h; simp at h
  | cons a rest ih =>
    intro fs up h
    obtain ⟨e, he, hg, hesc⟩ := h
    simp only [unpackLayerRun]
    rcases List.mem_cons.mp he with rfl | hmem
    · rw [unpackLayerStep_escapes opts dest fs up e hg hesc]
      rfl
    · cases hstep : unpackLayerStep opts dest fs up a with
      | error err => rfl
      | ok r =>
        obtain ⟨fs', up'⟩ := r
        exact ih fs' up' ⟨e, hmem, hg, hesc⟩

/-- Splitting a layer application at a stream concatenation. -/
theorem unpackLayerRun_append (opts : TarOptions) (dest : Path) (fs : Fs)
    (up : List Path) (xs ys : List Entry) :
    unpackLayerRun opts dest fs up (xs ++ ys) =
      match unpackLayerRun opts dest fs up xs with
      | ((fs', up'), none) => unpackLayerRun opts dest fs' up' ys
      | ((fs', up'), some err) => ((fs', up'), some err) := by
  induction xs generalizing fs up with
  | nil => rfl
  | cons e rest ih =>
    simp only [List.cons_append, unpackLayerRun]
    cases hstep : unpackLayerStep opts dest fs up e with
    | error err => rfl
    | ok r =>
      obtain ⟨fs', up'⟩ := r
      exact ih fs' up'

/-- **C1 (amended).**  For every tar stream containing an entry, other than a
PAX global header, whose name after normalization still escapes through a
`..` component: unpacking the stream into a destination `D` — via `Untar` or
via layer application, from any starting state and unpacked set — fails,
with `ErrBreakout` when the entries preceding such an escaping entry apply
cleanly, and creates no filesystem object outside `D` (every path that does
not extend the destination is exactly as before). -/
theorem untar_dotdot_breakout (opts : TarOptions) (dest : Path) (fs : Fs)
    (entries : List Entry)
    (h : ∃ e ∈ entries, e.typeflag ≠ TypeFlag.xGlobalHeader ∧ escapes e.name = true) :
    ((untarRun opts dest fs entries).2.isSome = true ∧
     (∀ q, ¬ dest <+: q → fsFind (untarRun opts dest fs entries).1 q = fsFind fs q) ∧
     (∀ pre e post, entries = pre ++ e :: post →
       e.typeflag ≠ TypeFlag.xGlobalHeader → escapes e.name = true →
       (untarRun opts dest fs pre).2 = none →
       (untarRun opts dest fs entries).2 = some .breakout)) ∧
    (∀ up : List Path,
     (unpackLayerRun opts dest fs up entries).2.isSome = true ∧
     (∀ q, ¬ dest <+: q →
       fsFind (unpackLayerRun opts dest fs up entries).1.1 q = fsFind fs q) ∧
     (∀ pre e post, entries = pre ++ e :: post →
       e.typeflag ≠ TypeFlag.xGlobalHeader → escapes e.name = true →
       (unpackLayerRun opts dest fs up pre).2 = none →
       (unpackLayerRun opts dest fs up entries).2 = some .breakout)) := by
  constructor
  · refine ⟨untarRun_fails_of_escape opts dest entries fs h,
      fun q hq => untarRun_outside opts dest entries fs q hq, ?_⟩
    intro pre e post hEq hg hesc hpre
    subst hEq
    rw [untarRun_append]
    rcases hrun : untarRun opts dest fs pre with ⟨fs₁, r⟩
    rw [hrun] at hpre
    simp only at hpre
    subst hpre
    simp only [untarRun, untarStep_escapes opts dest fs₁ e hg hesc]
  · intro up
    refine ⟨unpackLayerRun_fails_of_escape opts dest entries fs up h,
      fun q hq => unpackLayerRun_outside opts dest entries fs up q hq, ?_⟩
    intro pre e post hEq hg hesc hpre
    subst hEq
    rw [unpackLayerRun_append]
    rcases hrun : unpackLayerRun opts dest fs up pre with ⟨⟨fs₁, up₁⟩, r⟩
    rw [hrun] at hpre
    simp only at hpre
    subst hpre
    simp only [unpackLayerRun, unpackLayerStep_escapes opts dest fs₁ up₁ e hg hesc]

/-- Witness for C1 (amended): the single-entry stream of the
`TestUntarInvalidFilenames` / `TestApplyLayerInvalidFilenames` tests breaks
out under both `Untar` and layer application. -/
theorem untar_dotdot_breakout_witness :
    (untarRun defaultOptions ["dst"] []
      [{ name := ["..", "victim", "dotdot"], typeflag := TypeFlag.reg,
         mode := 0o644 }]).2 = some ArchiveError.breakout ∧
    (unpackLayerRun defaultOptions ["dst"] [] []
      [{ name := ["..", "victim", "dotdot"], typeflag := TypeFlag.reg,
         mode := 0o644 }]).2 = some ArchiveError.breakout := by
  have h := untar_dotdot_breakout defaultOptions ["dst"] []
    [{ name := ["..", "victim", "dotdot"], typeflag := TypeFlag.reg, mode := 0o644 }]
    ⟨{ name := ["..", "victim", "dotdot"], typeflag := TypeFlag.reg, mode := 0o644 },
      by simp, by decide, by decide⟩
  exact ⟨h.1.2.2 [] _ [] rfl (by decide) (by decide) rfl,
    (h.2 []).2.2 [] _ [] rfl (by decide) (by decide) rfl⟩

/-- Counterexample to C1 as stated: a PAX global header entry whose name
still contains a `..` component after normalization is skipped entirely, so
unpacking the stream — via `Untar` or via layer application — succeeds
instead of failing with `ErrBreakout`. -/
theorem untar_dotdot_pax_global_succeeds :
    escapes ["..", "victim", "dotdot"] = true ∧
    untarRun defaultOptions ["dst"] []
      [{ name := ["..", "victim", "dotdot"], typeflag := TypeFlag.xGlobalHeader,
         mode := 0o644 }] = ([], none) ∧
    unpackLayerRun defaultOptions ["dst"] [] []
      [{ name := ["..", "victim", "dotdot"], typeflag := TypeFlag.xGlobalHeader,
         mode := 0o644 }] = (([], []), none) := by
  refine ⟨rfl, rfl, rfl⟩

/-- **C2.**  The unpacker refuses to create a hardlink whose source is a
symlink: a hardlink entry whose linkname resolves, inside the destination, to
a symbolic link in the current state fails the step with
`ErrInvalidHardlink`; consequently a stream whose prefix applies cleanly and
creates such a symlink fails at the hardlink entry with `ErrInvalidHardlink`,
leaving the state exactly as after the prefix (no hardlink to the symlink is
created). -/
theorem untar_refuses_hardlink_to_symlink (opts : TarOptions) (dest : Path) :
    (∀ (fs : Fs) (e : Entry) (rel srcRel : List String) (m : Meta) (tgt : List String),
      e.typeflag = TypeFlag.link →
      resolveSub e.name = .ok rel →
      resolveComps [] e.linkname = .ok srcRel →
      fsFind fs (dest ++ srcRel) = some (.symlink m tgt) →
      untarStep opts dest fs e = .error .invalidHardlink) ∧
    (∀ (fs fs₁ : Fs) (pre post : List Entry) (e : Entry) (rel srcRel : List String)
        (m : Meta) (tgt : List String),
      untarRun opts dest fs pre = (fs₁, none) →
      e.typeflag = TypeFlag.link →
      resolveSub e.name = .ok rel →
      resolveComps [] e.linkname = .ok srcRel →
      fsFind fs₁ (dest ++ srcRel) = some (.symlink m tgt) →
      untarRun opts dest fs (pre ++ e :: post) = (fs₁, some .invalidHardlink)) := by
  constructor
  · exact fun fs e rel srcRel m tgt htf hname hlink hsrc =>
      untarStep_link_symlink opts dest fs e rel srcRel m tgt htf hname hlink hsrc
  · intro fs fs₁ pre post e rel srcRel m tgt hpre htf hname hlink hsrc
    rw [untarRun_append, hpre]
    simp only [untarRun,
      untarStep_link_symlink opts dest fs₁ e rel srcRel m tgt htf hname hlink hsrc]

/-- Witness for C2: the `TestUntarHardlinkToSymlink` stream — a symlink
entry followed by a hardlink entry pointing at it. -/
theorem untar_refuses_hardlink_to_symlink_witness :
    untarRun defaultOptions [] []
      [{ name := ["symlink1"], typeflag := TypeFlag.symlink, linkname := ["regfile"],
         mode := 0o644 },
       { name := ["symlink2"], typeflag := TypeFlag.link, linkname := ["symlink1"],
         mode := 0o644 }] =
      ([(["symlink1"], FNode.symlink ⟨0o644, 0, 0⟩ ["regfile"])],
        some ArchiveError.invalidHardlink) := by
  have h := (untar_refuses_hardlink_to_symlink defaultOptions []).2
    [] [(["symlink1"], FNode.symlink ⟨0o644, 0, 0⟩ ["regfile"])]
    [{ name := ["symlink1"], typeflag := TypeFlag.symlink, linkname := ["regfile"],
       mode := 0o644 }] []
    { name := ["symlink2"], typeflag := TypeFlag.link, linkname := ["symlink1"],
      mode := 0o644 }
    ["symlink2"] ["symlink1"] ⟨0o644, 0, 0⟩ ["regfile"] rfl rfl rfl rfl rfl
  exact h

/-- **C5.**  Entries with the PAX global header typeflag are skipped entirely
on extraction: the step leaves the filesystem unchanged and produces no
error, and deleting such an entry from any stream does not change the result
of unpacking (in particular no parent directory named by the entry's path is
created). -/
theorem pax_global_header_skipped (opts : TarOptions) (dest : Path) (fs : Fs)
    (e : Entry) (he : e.typeflag = TypeFlag.xGlobalHeader) :
    untarStep opts dest fs e = .ok fs ∧
    (∀ pre post, untarRun opts dest fs (pre ++ e :: post) =
      untarRun opts dest fs (pre ++ post)) := by
  refine ⟨untarStep_xGlobal opts dest fs e he, ?_⟩
  intro pre post
  rw [untarRun_append, untarRun_append]
  rcases hrun : untarRun opts dest fs pre with ⟨fs₁, r⟩
  cases r with
  | none => simp only [untarRun, untarStep_xGlobal opts dest fs₁ e he]
  | some err => rfl

/-- Witness for C5: the `TestXGlobalNoParent` stream — a global-header entry
named `foo/bar` creates nothing, in particular no `foo`. -/
theorem pax_global_header_skipped_witness :
    untarRun defaultOptions [] []
      [{ name := ["foo", "bar"], typeflag := TypeFlag.xGlobalHeader }] = ([], none) ∧
    fsFind (untarRun defaultOptions [] []
      [{ name := ["foo", "bar"], typeflag := TypeFlag.xGlobalHeader }]).1 ["foo"] =
      none := by
  have h := (pax_global_header_skipped defaultOptions [] []
    { name := ["foo", "bar"], typeflag := TypeFlag.xGlobalHeader } rfl).2 [] []
  simp only [List.nil_append, List.append_nil] at h
  constructor
  · exact h
  · rw [h]
    rfl

/-- **C7.**  When a successfully applied entry's parents are synthesized,
every missing proper prefix of its resolved path is created as a directory
carrying exactly the configured implied-directory mode (never bits of the
entry itself), prefixes that already exist are left untouched, an explicit
directory entry receives exactly the mode of its header, and the default
implied-directory mode is `0o755`. -/
theorem implied_directory_permissions (opts : TarOptions) (dest : Path) (fs : Fs)
    (e : Entry) (rel : List String) (fs' : Fs)
    (hg : e.typeflag ≠ TypeFlag.xGlobalHeader)
    (hres : resolveSub e.name = .ok rel)
    (hok : untarStep opts dest fs e = .ok fs') :
    (∀ k, 0 < k → k < rel.length →
      (fsFind fs (dest ++ rel.take k) = none →
        fsFind fs' (dest ++ rel.take k) = some (impliedDir opts)) ∧
      (∀ n, fsFind fs (dest ++ rel.take k) = some n →
        fsFind fs' (dest ++ rel.take k) = some n)) ∧
    (e.typeflag = TypeFlag.dir →
      fsFind fs' (dest ++ rel) =
        some (.dir ⟨e.mode, (extractOwner opts e).1, (extractOwner opts e).2⟩)) ∧
    impliedDir defaultOptions = FNode.dir ⟨0o755, 0, 0⟩ := by
  rw [untarStep, if_neg hg, hres] at hok
  refine ⟨?_, ?_, rfl⟩
  · intro k hk0 hk
    have hlen : (dest ++ rel.take k).length < (dest ++ rel).length := by
      rw [List.length_append, List.length_append, List.length_take]
      omega
    have hnp : ¬ (dest ++ rel) <+: dest ++ rel.take k := fun hpre => by
      have := hpre.length_le
      omega
    have hd := dispatchEntry_find_other opts dest _ rel e fs' hok _ hnp
    rw [hd, fsFind_mkParents_take opts rel fs dest k hk0 hk]
    constructor
    · intro hnone
      rw [hnone]
    · intro n hn
      rw [hn]
  · intro htf
    exact dispatchEntry_dir opts dest _ rel e fs' htf hok

/-- Witness for C7: the first entry of `TestImpliedDirectoryPermissions` —
unpacking `deeply/nested/and/implied` into an empty destination creates
`deeply` with the implied-directory mode. -/
theorem implied_directory_permissions_witness :
    fsFind (mkParents defaultOptions [] [] ["deeply", "nested", "and", "implied"])
        ["deeply"] = some (impliedDir defaultOptions) ∧
    impliedDir defaultOptions = FNode.dir ⟨0o755, 0, 0⟩ := by
  have h := implied_directory_permissions defaultOptions [] []
    { name := ["deeply", "nested", "and", "implied"], typeflag := TypeFlag.reg }
    ["deeply", "nested", "and", "implied"] _ (by decide) rfl rfl
  refine ⟨?_, h.2.2⟩
  have h1 := (h.1 1 (by decide) (by decide)).1 rfl
  simpa using h1

/-! ## The chrootarchive path translation (`chrootarchive/archive.go`)

`resolvePathInChroot` is embedded directly from the source.  It relies on
Go's `path/filepath` standard library, which is modelled below for Unix
(empty volume names, `'/'` separator).  Paths are represented as `List Char`
at this level because the functions are character-level string algorithms. -/

/-- Split a character string on `'/'`. -/
def splitSlash : List Char → List (List Char)
  | [] => [[]]
  | c :: rest =>
    match splitSlash rest with
    | [] => [[]]
    | t :: ts => if c = '/' then [] :: t :: ts else (c :: t) :: ts

/-- Join fields with `'/'`. -/
def joinSlash (fields : List (List Char)) : List Char :=
  List.intercalate ['/'] fields

/-- The element stack of Go's `filepath.Clean`: `..` pops a previous element
(unless it is itself `..`); at the top of a rooted path `..` is dropped, at
the top of a relative path it is kept.  The stack is held reversed (head is
the most recent element). -/
def cleanStack (rooted : Bool) : List (List Char) → List (List Char) → List (List Char)
  | stack, [] => stack
  | stack, c :: rest =>
    if c = ['.', '.'] then
      match stack with
      | top :: more =>
        if top = ['.', '.'] then cleanStack rooted (c :: stack) rest
        else cleanStack rooted more rest
      | [] =>
        if rooted then cleanStack rooted [] rest
        else cleanStack rooted [c] rest
    else cleanStack rooted (c :: stack) rest

/-- Model of Go's `filepath.Clean` for Unix: shortest lexical equivalent of
the path — repeated separators and `.` elements removed, `..` elements
folded, `.` for the empty result. -/
def goClean (s : List Char) : List Char :=
  if s = [] then ['.']
  else
    let rooted := s.head? = some '/'
    let comps := (splitSlash s).filter fun c => ¬(c = [] ∨ c = ['.'])
    let body := joinSlash (cleanStack rooted [] comps).reverse
    if rooted then '/' :: body
    else if body = [] then ['.'] else body

/-- Drop the longest common prefix of two field lists, returning both
remainders (the position at which Go's `filepath.Rel` loop stops). -/
def dropCommon : List (List Char) → List (List Char) → List (List Char) × List (List Char)
  | [], ts => ([], ts)
  | bs, [] => (bs, [])
  | b :: bs, t :: ts => if b = t then dropCommon bs ts else (b :: bs, t :: ts)

/-- The fields Go's `filepath.Rel` walk sees: the empty cleaned base has no
fields, the root `"/"` has the single empty field before its separator, and
any other cleaned path splits on `'/'`. -/
def relFields (s : List Char) : List (List Char) :=
  if s = [] then []
  else if s = ['/'] then [[]]
  else splitSlash s

/-- Model of Go's `filepath.Rel` for Unix: clean both paths, succeed with `.`
on equality, fail when exactly one of them is rooted or when the walk would
have to ascend through a `..` element of the base, and otherwise produce the
`..`-prefixed relative path from base to target. -/
def goRel (basepath targpath : List Char) : Except (List Char) (List Char) :=
  let base := goClean basepath
  let targ := goClean targpath
  if targ = base then .ok ['.']
  else
    let base := if base = ['.'] then [] else base
    if ((base.head? = some '/') ≠ (targ.head? = some '/')) then
      .error (String.toList "Rel: cannot make target relative to base")
    else
      match dropCommon (relFields base) (relFields targ) with
      | (brem, trem) =>
        if brem.head? = some ['.', '.'] then
          .error (String.toList "Rel: cannot make target relative to base")
        else if brem = [] then .ok (joinSlash trem)
        else
          let dots := joinSlash (brem.map fun _ => ['.', '.'])
          if trem = [] then .ok dots else .ok (dots ++ '/' :: joinSlash trem)

/-- Embedded from `chrootarchive/archive.go`:

```go
func resolvePathInChroot(root, path string) (string, error) {
    if root == "" { return "", errors.New("root path must not be empty") }
    rel, err := filepath.Rel(root, path)
    if err != nil { return "", err }
    if rel == "." { rel = "/" }
    if rel[0] != '/' { rel = "/" + rel }
    return rel, nil
}
```

The `rel[0]` index is rendered with `head?` (Go's `Rel` never returns an
empty string on success, so the two readings agree). -/
def resolvePathInChroot (root path : List Char) : Except (List Char) (List Char) :=
  if root = [] then .error (String.toList "root path must not be empty")
  else
    match goRel root path with
    | .error e => .error e
    | .ok rel =>
      let rel := if rel = ['.'] then ['/'] else rel
      let rel := if rel.head? = some '/' then rel else '/' :: rel
      .ok rel

example : goClean (String.toList "/../victim/x") = String.toList "/victim/x" := by decide

example : goClean (String.toList "a/b/../c//./d") = String.toList "a/c/d" := by decide

example : goRel (String.toList "/a/b") (String.toList "/a/b/c/d") =
    .ok (String.toList "c/d") := rfl

example : goRel (String.toList "/a/b") (String.toList "/a/x") =
    .ok (String.toList "../x") := rfl

example : resolvePathInChroot (String.toList "/a/b") (String.toList "/a/b/c/d") =
    .ok (String.toList "/c/d") := rfl

/-- **C10.**  `resolvePathInChroot(root, path)` errors exactly when `root` is
empty or `path` cannot be made relative to `root` (i.e. `filepath.Rel`
errors); on success the returned path always begins with `'/'`; and
`resolvePathInChroot(root, root)` returns `"/"` for every non-empty root. -/
theorem resolvePathInChroot_spec (root path : List Char) :
    ((∃ msg, resolvePathInChroot root path = .error msg) ↔
      (root = [] ∨ ∃ msg, goRel root path = .error msg)) ∧
    (∀ r, resolvePathInChroot root path = .ok r → r.head? = some '/') ∧
    (root ≠ [] → resolvePathInChroot root root = .ok ['/']) := by
  refine ⟨?_, ?_, ?_⟩
  · by_cases hr : root = []
    · simp [resolvePathInChroot, hr]
    · simp only [resolvePathInChroot, if_neg hr]
      cases hrel : goRel root path with
      | error e => simp [hr, hrel]
      | ok rel => simp [hr, hrel]
  · intro r hok
    by_cases hr : root = []
    · simp [resolvePathInChroot, hr] at hok
    · simp only [resolvePathInChroot, if_neg hr] at hok
      cases hrel : goRel root path with
      | error e => rw [hrel] at hok; cases hok
      | ok rel =>
        rw [hrel] at hok
        simp only at hok
        by_cases hdot : rel = ['.']
        · simp only [hdot, if_pos rfl] at hok
          cases hok
          rfl
        · simp only [if_neg hdot] at hok
          by_cases hslash : rel.head? = some '/'
          · rw [if_pos hslash] at hok
            cases hok
            exact hslash
          · rw [if_neg hslash] at hok
            cases hok
            rfl
  · intro hr
    have hself : goRel root root = .ok ['.'] := by
      unfold goRel
      rw [if_pos rfl]
    simp [resolvePathInChroot, hr, hself]

/-- Witness for C10: the root maps to the chroot's own root. -/
theorem resolvePathInChroot_spec_witness :
    resolvePathInChroot (String.toList "/a/b") (String.toList "/a/b") = .ok ['/'] :=
  (resolvePathInChroot_spec (String.toList "/a/b") (String.toList "/a/b")).2.2
    (by decide)

/-! ## The packer (§4.D) -/

/-- Modelled from the spec: §4.D steps 1 — include/exclude selection.  A node
is packed when either the include list is empty or some include entry is a
prefix of the path ("only these and their descendants"), and no exclude
pattern matches (patterns are modelled as component-path prefixes of the
gitignore subset the tests exercise). -/
def packSelect (opts : TarOptions) (p : Path) : Bool :=
  (opts.includeFiles.isEmpty || opts.includeFiles.any fun inc => inc.isPrefixOf p) &&
  !(opts.excludePatterns.any fun pat => pat.isPrefixOf p)

/-- Modelled from the spec: §4.D step 2 — if the relative path has a prefix
in the rebase map, replace that prefix with its mapping in the emitted entry
name. -/
def rebaseName (opts : TarOptions) (p : Path) : Path :=
  match opts.rebaseNames.find? (fun kv => kv.1.isPrefixOf p) with
  | some kv => kv.2 ++ p.drop kv.1.length
  | none => p

/-- Modelled from the spec: §4.D step 3 — ownership written into emitted
headers: the ID map translates the source owner to container ids, and
`ChownOpts`, when present, overrides unconditionally. -/
def packHeaderOwner (opts : TarOptions) (m : Meta) : Nat × Nat :=
  match opts.chownOpts with
  | some c => (c.uid, c.gid)
  | none => (mapToContainer opts.uidMaps m.uid, mapToContainer opts.gidMaps m.gid)

/-- Modelled from the spec: §4.D — walk the tree in list (lexicographic)
order, apply selection and rebase, and emit one header per node; a regular
file whose inode was already emitted becomes a hardlink entry pointing at the
first emitted name (§4.D step 4), with the hardlink table `seen` keyed by
inode. -/
def packEntries (opts : TarOptions) : List (Nat × Path) → Fs → List Entry
  | _, [] => []
  | seen, (p, n) :: rest =>
    if packSelect opts p then
      let name := rebaseName opts p
      match n with
      | .dir m =>
        { name := name, typeflag := .dir, mode := m.mode,
          uid := (packHeaderOwner opts m).1, gid := (packHeaderOwner opts m).2 } ::
          packEntries opts seen rest
      | .symlink m tgt =>
        { name := name, typeflag := .symlink, linkname := tgt, mode := m.mode,
          uid := (packHeaderOwner opts m).1, gid := (packHeaderOwner opts m).2 } ::
          packEntries opts seen rest
      | .file m sz i =>
        match seen.lookup i with
        | some q =>
          { name := name, typeflag := .link, linkname := q, mode := m.mode,
            uid := (packHeaderOwner opts m).1, gid := (packHeaderOwner opts m).2,
            size := 0 } :: packEntries opts seen rest
        | none =>
          { name := name, typeflag := .reg, mode := m.mode,
            uid := (packHeaderOwner opts m).1, gid := (packHeaderOwner opts m).2,
            size := sz } :: packEntries opts ((i, name) :: seen) rest
    else packEntries opts seen rest

/-- Modelled from the spec: `TarWithOptions` — the stream of headers produced
for a source tree under the given options. -/
def packWithOptions (fs : Fs) (opts : TarOptions) : List Entry :=
  packEntries opts [] fs

/-- Every entry emitted by `packEntries` carries the ChownOpts owner when that
override is set, whatever the hardlink table and tree. -/
theorem packEntries_chown (opts : TarOptions) (c : ChownOpts)
    (hc : opts.chownOpts = some c) :
    ∀ (fs : Fs) (seen : List (Nat × Path)) (e : Entry),
      e ∈ packEntries opts seen fs → e.uid = c.uid ∧ e.gid = c.gid := by
  intro fs
  induction fs with
  | nil => intro seen e he; simp [packEntries] at he
  | cons hd rest ih =>
    intro seen e he
    obtain ⟨p, n⟩ := hd
    cases n with
    | dir m =>
      simp only [packEntries] at he
      split at he
      · rcases List.mem_cons.mp he with rfl | hmem
        · simp [packHeaderOwner, hc]
        · exact ih seen e hmem
      · exact ih seen e he
    | symlink m tgt =>
      simp only [packEntries] at he
      split at he
      · rcases List.mem_cons.mp he with rfl | hmem
        · simp [packHeaderOwner, hc]
        · exact ih seen e hmem
      · exact ih seen e he
    | file m sz i =>
      simp only [packEntries] at he
      split at he
      · rcases hlook : List.lookup i seen with _ | q <;> rw [hlook] at he
        · rcases List.mem_cons.mp he with rfl | hmem
          · simp [packHeaderOwner, hc]
          · exact ih _ e hmem
        · rcases List.mem_cons.mp he with rfl | hmem
          · simp [packHeaderOwner, hc]
          · exact ih seen e hmem
      · exact ih seen e he

/-- **C6.**  Under `ChownOpts = {uid, gid}`, every header emitted by the
packer carries exactly that owner, regardless of the ID maps, the no-lchown
flag, the source metadata, and the hardlink structure. -/
theorem pack_chown_opts_overrides (fs : Fs) (opts : TarOptions) (c : ChownOpts)
    (hc : opts.chownOpts = some c) :
    ∀ e ∈ packWithOptions fs opts, e.uid = c.uid ∧ e.gid = c.gid :=
  fun e he => packEntries_chown opts c hc fs [] e he

/-- Witness for C6: the single-file tree of
`TestTarWithOptionsChownOptsAlwaysOverridesIdPair`, with the 100000-offset ID
map and ChownOpts `{1337, 42}`: the emitted regular-file header carries owner
`1337:42`. -/
theorem pack_chown_opts_overrides_witness :
    TarOptions.chownOpts
      { chownOpts := some ⟨1337, 42⟩,
        uidMaps := [⟨0, 100000, 65536⟩], gidMaps := [⟨0, 100000, 65536⟩],
        noLchown := true } = some ⟨1337, 42⟩ ∧
    Entry.uid { name := ["1"], typeflag := .reg, mode := 0o700,
                uid := 1337, gid := 42, size := 11 } = 1337 ∧
    Entry.gid { name := ["1"], typeflag := .reg, mode := 0o700,
                uid := 1337, gid := 42, size := 11 } = 42 :=
  ⟨rfl,
   pack_chown_opts_overrides [(["1"], FNode.file ⟨0o700, 0, 0⟩ 11 1)]
    { chownOpts := some ⟨1337, 42⟩,
      uidMaps := [⟨0, 100000, 65536⟩], gidMaps := [⟨0, 100000, 65536⟩],
      noLchown := true } ⟨1337, 42⟩ rfl
    { name := ["1"], typeflag := .reg, mode := 0o700,
      uid := 1337, gid := 42, size := 11 } (by decide)⟩

/-! ## Walk order on paths

The walker visits names in lexicographic order.  The order is defined over
the character data of the component strings (Go compares names byte-wise),
which keeps it kernel-computable. -/

/-- Strict order on strings by character data. -/
def strLt (s t : String) : Prop := s.data < t.data

instance : DecidableRel strLt := fun s t =>
  inferInstanceAs (Decidable (s.data < t.data))

instance : IsTrichotomous String strLt :=
  ⟨fun s t => by
    rcases lt_trichotomy s.data t.data with h | h | h
    · exact .inl h
    · refine .inr (.inl ?_)
      cases s
      cases t
      exact congrArg String.mk (by simpa using h)
    · exact .inr (.inr h)⟩

instance : IsTrans String strLt := ⟨fun _ _ _ => lt_trans⟩

instance : IsIrrefl String strLt := ⟨fun s => lt_irrefl s.data⟩

instance : IsAsymm String strLt := ⟨fun _ _ => lt_asymm⟩

instance : IsStrictOrder String strLt := ⟨⟩

instance : IsStrictTotalOrder String strLt := ⟨⟩

/-- Walk order on paths: lexicographic over `strLt`. -/
abbrev pathLt (p q : Path) : Prop := List.Lex strLt p q

/-- Reflexive closure of the walk order. -/
def pathLe (p q : Path) : Prop := pathLt p q ∨ p = q

instance : DecidableRel pathLe := fun _ _ => instDecidableOr

/-- A strict prefix is smaller in walk order: parents precede children. -/
theorem pathLt_of_strict_prefix (l : Path) (x : String) (t : List String) :
    pathLt l (l ++ x :: t) := by
  induction l with
  | nil => exact List.Lex.nil
  | cons c cs ih => exact List.Lex.cons ih

/-! ## The change detector (§4.F) -/

/-- What the change detector compares (§4.F): kind, mode, owner, size and
symlink target — but not the inode number. -/
def scrub : FNode → FNode
  | .file m sz _ => .file m sz 0
  | n => n

/-- `scrub` on a path/node pair. -/
def scrubPair (pn : Path × FNode) : Path × FNode := (pn.1, scrub pn.2)

inductive ChangeKind where
  | add
  | modify
  | delete
  deriving DecidableEq, Repr

/-- One detected change (§3). -/
structure Change where
  path : Path
  kind : ChangeKind
  deriving DecidableEq, Repr

/-- Modelled from the spec: classification of one path by the change
detector (§4.F): present only in the new tree → Add; present in both with
differing identity → Modify; present only in the old tree → Delete. -/
def classifyChange (newFs oldFs : Fs) (p : Path) : Option Change :=
  match fsFind newFs p, fsFind oldFs p with
  | some x, some y => if scrub x = scrub y then none else some ⟨p, .modify⟩
  | some _, none => some ⟨p, .add⟩
  | none, some _ => some ⟨p, .delete⟩
  | none, none => none

/-- Modelled from the spec: `ChangesDirs(newDir, oldDir)` — walk both trees
and emit the classified differences as a list sorted by path (§4.F;
directory mtime is not an identity component on Unix, and mtimes are not
part of this model). -/
def changesDirs (newFs oldFs : Fs) : List Change :=
  (((fsKeys newFs ++ fsKeys oldFs).dedup).insertionSort pathLe).filterMap
    (classifyChange newFs oldFs)

/-- Trees whose nodes agree pointwise up to `scrub` have no detected
changes. -/
theorem changesDirs_eq_nil (newFs oldFs : Fs)
    (h : ∀ p, (fsFind newFs p).map scrub = (fsFind oldFs p).map scrub) :
    changesDirs newFs oldFs = [] := by
  unfold changesDirs
  rw [List.filterMap_eq_nil_iff]
  intro p _
  unfold classifyChange
  have hp := h p
  cases hnew : fsFind newFs p with
  | none =>
    rw [hnew] at hp
    cases hold : fsFind oldFs p with
    | none => rfl
    | some y => rw [hold] at hp; simp at hp
  | some x =>
    rw [hnew] at hp
    cases hold : fsFind oldFs p with
    | none => rw [hold] at hp; simp at hp
    | some y =>
      rw [hold] at hp
      simp only [Option.map] at hp
      have hxy : scrub x = scrub y := Option.some.inj hp
      simp [hxy]

/-- Pointwise lookup agreement follows from `scrubPair`-level list
agreement. -/
theorem fsFind_scrub_eq (fs done : Fs)
    (h : fs.map scrubPair = done.map scrubPair) (p : Path) :
    (fsFind fs p).map scrub = (fsFind done p).map scrub := by
  induction fs generalizing done with
  | nil =>
    cases done with
    | nil => rfl
    | cons hd tl => simp at h
  | cons hd tl ih =>
    cases done with
    | nil => simp at h
    | cons hd' tl' =>
      obtain ⟨q, n⟩ := hd
      obtain ⟨q', n'⟩ := hd'
      simp only [List.map_cons, scrubPair, List.cons.injEq, Prod.mk.injEq] at h
      obtain ⟨⟨hq, hn⟩, htl⟩ := h
      subst hq
      by_cases hp : p = q
      · simp [fsFind, hp, hn]
      · simp only [fsFind, if_neg hp]
        exact ih tl' htl

/-! ## Well-formed source trees (what a directory walk produces) -/

/-- A component the walker can emit: non-empty and not a normalization
component. -/
def validComp (c : String) : Bool := !(c == "" || c == "." || c == "..")

/-- Keys strictly increasing in walk order. -/
def pathsSorted : Fs → Bool
  | [] => true
  | [_] => true
  | a :: b :: rest => decide (pathLt a.1 b.1) && pathsSorted (b :: rest)

/-- Per-node conditions: a usable non-empty name, every proper prefix present
as a directory, and symlink targets that resolve inside the tree (targets
that lexically escape the root are refused by the unpacker, as the breakout
tests of the suite check). -/
def nodeOk (fs : Fs) (p : Path) (n : FNode) : Bool :=
  !p.isEmpty && p.all validComp &&
  ((List.range p.length).all fun k =>
    decide (k = 0) ||
    (match fsFind fs (p.take k) with
     | some (.dir _) => true
     | _ => false)) &&
  (match n with
   | .symlink _ tgt =>
     (match resolveComps p.dropLast tgt with
      | .ok _ => true
      | .error _ => false)
   | _ => true)

/-- Hardlinked files (same inode) agree on metadata and size. -/
def linkAgrees : FNode → FNode → Bool
  | .file m sz i, .file m' sz' i' => i != i' || (m == m' && sz == sz')
  | _, _ => true

/-- A well-formed source tree: sorted walk order, well-formed names with
parents present, and inode-consistent hardlinks. -/
def wfTree (fs : Fs) : Bool :=
  pathsSorted fs &&
  fs.all (fun pn => nodeOk fs pn.1 pn.2) &&
  fs.all fun pn => fs.all fun qm => linkAgrees pn.2 qm.2

theorem pathsSorted_pairwise :
    ∀ (fs : Fs), pathsSorted fs = true →
      List.Pairwise (fun a b : Path × FNode => pathLt a.1 b.1) fs
  | [], _ => List.Pairwise.nil
  | [a], _ => by simp
  | a :: b :: rest, h => by
    simp only [pathsSorted, Bool.and_eq_true, decide_eq_true_eq] at h
    obtain ⟨hab, hrest⟩ := h
    have ih := pathsSorted_pairwise (b :: rest) hrest
    refine List.Pairwise.cons ?_ ih
    intro x hx
    rcases List.mem_cons.mp hx with rfl | hx'
    · exact hab
    · exact IsTrans.trans a.1 b.1 x.1 hab (List.rel_of_pairwise_cons ih hx')

theorem fsFind_mem :
    ∀ (l : Fs) (q : Path) (n : FNode), fsFind l q = some n → (q, n) ∈ l
  | [], q, n, h => by simp [fsFind] at h
  | (r, m) :: rest, q, n, h => by
    by_cases hq : q = r
    · subst hq
      have h2 : m = n := by simpa [fsFind] using h
      subst h2
      exact List.mem_cons_self _ _
    · simp only [fsFind, if_neg hq] at h
      exact List.mem_cons_of_mem _ (fsFind_mem rest q n h)

theorem fsFind_of_mem :
    ∀ (l : Fs), List.Pairwise (fun a b : Path × FNode => pathLt a.1 b.1) l →
      ∀ (q : Path) (n : FNode), (q, n) ∈ l → fsFind l q = some n
  | [], _, q, n, hm => by simp at hm
  | (r, m) :: rest, hpw, q, n, hm => by
    rcases List.mem_cons.mp hm with heq | hm'
    · cases heq
      simp [fsFind]
    · by_cases hq : q = r
      · subst hq
        have := List.rel_of_pairwise_cons hpw hm'
        exact absurd this (irrefl_of (List.Lex strLt) q)
      · simp only [fsFind, if_neg hq]
        exact fsFind_of_mem rest hpw.of_cons q n hm'

theorem fsFind_append (l₁ l₂ : Fs) (q : Path) :
    fsFind (l₁ ++ l₂) q =
      match fsFind l₁ q with
      | some n => some n
      | none => fsFind l₂ q := by
  induction l₁ with
  | nil => rfl
  | cons hd tl ih =>
    obtain ⟨r, m⟩ := hd
    by_cases hq : q = r <;> simp [fsFind, hq, ih]

theorem resolveComps_valid :
    ∀ (p stack : List String), p.all validComp = true →
      resolveComps stack p = .ok (stack ++ p)
  | [], stack, _ => by simp [resolveComps]
  | c :: rest, stack, h => by
    have hc : validComp c = true ∧ rest.all validComp = true := by simpa using h
    have hc1 : ¬(c = "" ∨ c = ".") := by
      intro hor
      rcases hor with h2 | h2 <;> rw [h2] at hc <;> simp [validComp] at hc
    have hc3 : ¬c = ".." := by
      intro h2
      rw [h2] at hc
      simp [validComp] at hc
    rw [resolveComps, if_neg hc1, if_neg hc3,
      resolveComps_valid rest (stack ++ [c]) hc.2]
    simp

theorem mkParents_noop (opts : TarOptions) :
    ∀ (comps : List String) (fs : Fs) (base : Path),
      (∀ k, 0 < k → k < comps.length →
        (fsFind fs (base ++ comps.take k)).isSome = true) →
      mkParents opts fs base comps = fs
  | [], fs, base, _ => rfl
  | c :: rest, fs, base, h => by
    simp only [mkParents]
    split
    · rfl
    · rename_i hrest
      have hlen : 1 < (c :: rest).length := by
        cases rest with
        | nil => exact absurd rfl hrest
        | cons x xs => simp
      have h1 : (fsFind fs (base ++ [c])).isSome = true := by
        simpa using h 1 one_pos hlen
      rw [if_pos h1]
      exact mkParents_noop opts rest fs (base ++ [c]) fun k hk0 hk => by
        have := h (k + 1) (Nat.succ_pos k) (by simpa using Nat.succ_lt_succ hk)
        simpa [List.take_succ_cons, List.append_assoc] using this

theorem scrub_map_keys {fs done : Fs}
    (h : fs.map scrubPair = done.map scrubPair) : fsKeys fs = fsKeys done := by
  have h2 := congrArg (List.map Prod.fst) h
  simpa [fsKeys, List.map_map, Function.comp, scrubPair] using h2

theorem scrub_file_inv {o : Option FNode} {m : Meta} {sz : Nat}
    (h : o.map scrub = some (.file m sz 0)) : ∃ ι, o = some (.file m sz ι) := by
  cases o with
  | none => simp at h
  | some x =>
    cases x with
    | file m' sz' i' =>
      simp only [Option.map, scrub, Option.some.injEq, FNode.file.injEq] at h
      exact ⟨i', by simp [h.1, h.2.1]⟩
    | dir m' => simp [scrub] at h
    | symlink m' t => simp [scrub] at h

theorem fsFind_none_of_scrub {fs done : Fs}
    (h : fs.map scrubPair = done.map scrubPair) {p : Path}
    (hd : fsFind done p = none) : fsFind fs p = none := by
  have := fsFind_scrub_eq fs done h p
  rw [hd] at this
  cases hf : fsFind fs p with
  | none => rfl
  | some x => rw [hf] at this; simp at this

theorem packSelect_default (p : Path) : packSelect defaultOptions p = true := rfl

theorem rebaseName_default (p : Path) : rebaseName defaultOptions p = p := rfl

theorem extractOwner_default (e : Entry) :
    extractOwner defaultOptions e = (e.uid, e.gid) := rfl

theorem lookup_extend_isSome {seen : List (Nat × Path)} {i j : Nat} {q : Path}
    (h : (List.lookup i seen).isSome = true) :
    (List.lookup i ((j, q) :: seen)).isSome = true := by
  by_cases hij : i = j
  · subst hij
    simp [List.lookup]
  · have hb : (i == j) = false := by simpa using hij
    simp [List.lookup, hb, h]

theorem packHeaderOwner_default (m : Meta) :
    packHeaderOwner defaultOptions m = (m.uid, m.gid) := rfl

theorem untarStep_eq_dispatch (opts : TarOptions) (dest : Path) (fs : Fs) (e : Entry)
    (rel : List String) (hg : ¬e.typeflag = TypeFlag.xGlobalHeader)
    (hres : resolveSub e.name = .ok rel) :
    untarStep opts dest fs e =
      dispatchEntry opts dest (mkParents opts fs dest rel) rel e := by
  rw [untarStep, if_neg hg, hres]

/-- Round-trip invariant: unpacking the pack of the remaining tree into a
state that mirrors the already-processed prefix succeeds and reproduces the
whole tree up to inode renumbering. -/
theorem pack_untar_aux :
    ∀ (todo done fs : Fs) (seen : List (Nat × Path)),
      wfTree (done ++ todo) = true →
      fs.map scrubPair = done.map scrubPair →
      (∀ i q, List.lookup i seen = some q → ∃ m sz, (q, FNode.file m sz i) ∈ done) →
      (∀ q m sz i, (q, FNode.file m sz i) ∈ done →
        (List.lookup i seen).isSome = true) →
      (untarRun defaultOptions [] fs (packEntries defaultOptions seen todo)).2 = none ∧
      (untarRun defaultOptions [] fs (packEntries defaultOptions seen todo)).1.map
          scrubPair = (done ++ todo).map scrubPair
  | [], done, fs, seen, hwf, hsim, _, _ => by
    refine ⟨rfl, ?_⟩
    simpa using hsim
  | (p, n) :: rest, done, fs, seen, hwf, hsim, hseen₁, hseen₂ => by
    have hwf' := hwf
    simp only [wfTree, Bool.and_eq_true, List.all_eq_true] at hwf'
    obtain ⟨⟨hsorted, hnodes⟩, hlinks⟩ := hwf'
    have hpw := pathsSorted_pairwise _ hsorted
    rw [List.pairwise_append] at hpw
    obtain ⟨hpwDone, hpwTodo, hcross⟩ := hpw
    have hmem : (p, n) ∈ done ++ (p, n) :: rest := by simp
    have hnodeOk := hnodes _ hmem
    simp only [nodeOk, Bool.and_eq_true] at hnodeOk
    obtain ⟨⟨⟨hpNonempty, hpValid⟩, hparents⟩, hsymOk⟩ := hnodeOk
    -- the entry's own path is fresh
    have hfdone : fsFind done p = none := by
      cases hf : fsFind done p with
      | none => rfl
      | some x =>
        have hx := fsFind_mem done p x hf
        have hlt := hcross _ hx _ (List.mem_cons_self _ _)
        exact absurd hlt (irrefl_of (List.Lex strLt) p)
    have hffs : fsFind fs p = none := fsFind_none_of_scrub hsim hfdone
    -- all proper prefixes of the path are already present
    have hparfs : ∀ k, 0 < k → k < p.length →
        (fsFind fs ([] ++ p.take k)).isSome = true := by
      intro k hk0 hk
      have hkfact := List.all_eq_true.mp hparents k (List.mem_range.mpr hk)
      rw [Bool.or_eq_true, decide_eq_true_eq] at hkfact
      rcases hkfact with hk0' | hmatch
      · omega
      · cases hfw : fsFind (done ++ (p, n) :: rest) (p.take k) with
        | none => rw [hfw] at hmatch; simp at hmatch
        | some x =>
          cases x with
          | file mf szf inof => rw [hfw] at hmatch; simp at hmatch
          | symlink ms ts => rw [hfw] at hmatch; simp at hmatch
          | dir md =>
            have hdone : fsFind done (p.take k) = some (.dir md) := by
              rw [fsFind_append] at hfw
              cases hfd : fsFind done (p.take k) with
              | some y => rw [hfd] at hfw; simpa using hfw
              | none =>
                rw [hfd] at hfw
                have hx := fsFind_mem _ _ _ hfw
                have hplt : pathLt (p.take k) p := by
                  have hdrop : p.take k ++ p.drop k = p := List.take_append_drop k p
                  have hne : p.drop k ≠ [] := by
                    intro hnil
                    have hlen := congrArg List.length hdrop
                    rw [hnil] at hlen
                    simp [List.length_take] at hlen
                    omega
                  obtain ⟨x₀, t₀, hxt⟩ := List.exists_cons_of_ne_nil hne
                  conv_rhs => rw [← hdrop, hxt]
                  exact pathLt_of_strict_prefix _ x₀ t₀
                rcases List.mem_cons.mp hx with heq | hmem'
                · have hpk : p.take k = p := congrArg Prod.fst heq
                  rw [hpk] at hplt
                  exact absurd hplt (irrefl_of (List.Lex strLt) p)
                · have hgt := List.rel_of_pairwise_cons hpwTodo hmem'
                  exact absurd hgt (asymm_of (List.Lex strLt) hplt)
            have hsc := fsFind_scrub_eq fs done hsim (p.take k)
            rw [hdone] at hsc
            simp only [List.nil_append]
            cases hffs' : fsFind fs (p.take k) with
            | none => rw [hffs'] at hsc; simp at hsc
            | some y => simp
    have hmkp : mkParents defaultOptions fs [] p = fs :=
      mkParents_noop defaultOptions p fs [] hparfs
    have hres : resolveSub p = .ok p := by
      have := resolveComps_valid p [] hpValid
      simpa [resolveSub] using this
    have hwfNext : ∀ (x : Path × FNode), x = (p, n) →
        wfTree ((done ++ [x]) ++ rest) = true := by
      intro x hx
      subst hx
      have hrw : (done ++ [(p, n)]) ++ rest = done ++ (p, n) :: rest := by simp
      rw [hrw]
      exact hwf
    cases n with
    | dir m =>
      have hstep : untarStep defaultOptions [] fs
          { name := p, typeflag := TypeFlag.dir, mode := m.mode,
            uid := m.uid, gid := m.gid } = .ok (fs ++ [(p, FNode.dir m)]) := by
        rw [untarStep_eq_dispatch defaultOptions [] fs _ p (by simp) hres, hmkp]
        simp only [dispatchEntry, extractOwner_default, List.nil_append, hffs]
        rw [insertNode_fresh fs p _ hffs]
      simp only [packEntries, packSelect_default, if_true, rebaseName_default,
        packHeaderOwner_default, untarRun, hstep]
      have hrec := pack_untar_aux rest (done ++ [(p, FNode.dir m)])
        (fs ++ [(p, FNode.dir m)]) seen (hwfNext _ rfl)
        (by rw [List.map_append, List.map_append, hsim])
        (fun i₀ q₀ hl => by
          obtain ⟨m', sz', hm'⟩ := hseen₁ i₀ q₀ hl
          exact ⟨m', sz', List.mem_append_left _ hm'⟩)
        (fun q₀ m₀ sz₀ i₀ hm₀ => by
          rcases List.mem_append.mp hm₀ with hm₀ | hm₀
          · exact hseen₂ _ _ _ _ hm₀
          · simp at hm₀)
      refine ⟨hrec.1, ?_⟩
      rw [hrec.2]
      simp
    | symlink m tgt =>
      have hsymOk2 : (match resolveComps p.dropLast tgt with
          | Except.ok _ => true
          | Except.error _ => false) = true := hsymOk
      obtain ⟨st, hst⟩ : ∃ st, resolveComps p.dropLast tgt = .ok st := by
        cases hst' : resolveComps p.dropLast tgt with
        | ok st => exact ⟨st, rfl⟩
        | error err =>
          rw [hst'] at hsymOk2
          simp at hsymOk2
      have hstep : untarStep defaultOptions [] fs
          { name := p, typeflag := TypeFlag.symlink, linkname := tgt, mode := m.mode,
            uid := m.uid, gid := m.gid } = .ok (fs ++ [(p, FNode.symlink m tgt)]) := by
        rw [untarStep_eq_dispatch defaultOptions [] fs _ p (by simp) hres, hmkp]
        simp only [dispatchEntry, extractOwner_default, List.nil_append, hst]
        rw [insertNode_fresh fs p _ hffs]
      simp only [packEntries, packSelect_default, if_true, rebaseName_default,
        packHeaderOwner_default, untarRun, hstep]
      have hrec := pack_untar_aux rest (done ++ [(p, FNode.symlink m tgt)])
        (fs ++ [(p, FNode.symlink m tgt)]) seen (hwfNext _ rfl)
        (by rw [List.map_append, List.map_append, hsim])
        (fun i₀ q₀ hl => by
          obtain ⟨m', sz', hm'⟩ := hseen₁ i₀ q₀ hl
          exact ⟨m', sz', List.mem_append_left _ hm'⟩)
        (fun q₀ m₀ sz₀ i₀ hm₀ => by
          rcases List.mem_append.mp hm₀ with hm₀ | hm₀
          · exact hseen₂ _ _ _ _ hm₀
          · simp at hm₀)
      refine ⟨hrec.1, ?_⟩
      rw [hrec.2]
      simp
    | file m sz i =>
      cases hlook : List.lookup i seen with
      | none =>
        have hstep : untarStep defaultOptions [] fs
            { name := p, typeflag := TypeFlag.reg, mode := m.mode,
              uid := m.uid, gid := m.gid, size := sz } =
            .ok (fs ++ [(p, FNode.file m sz (freshIno fs))]) := by
          rw [untarStep_eq_dispatch defaultOptions [] fs _ p (by simp) hres, hmkp]
          simp only [dispatchEntry, extractOwner_default, List.nil_append, hffs]
          rw [insertNode_fresh fs p _ hffs]
        simp only [packEntries, packSelect_default, if_true, rebaseName_default,
          packHeaderOwner_default, hlook, untarRun, hstep]
        have hrec := pack_untar_aux rest (done ++ [(p, FNode.file m sz i)])
          (fs ++ [(p, FNode.file m sz (freshIno fs))]) ((i, p) :: seen) (hwfNext _ rfl)
          (by
            rw [List.map_append, List.map_append, hsim]
            rfl)
          (fun i₀ q₀ hl => by
            by_cases hi : i₀ = i
            · subst hi
              have hq : p = q₀ := by simpa [List.lookup] using hl
              subst hq
              exact ⟨m, sz, by simp⟩
            · have hb : (i₀ == i) = false := by simpa using hi
              have hl' : List.lookup i₀ seen = some q₀ := by
                simpa [List.lookup, hb] using hl
              obtain ⟨m', sz', hm'⟩ := hseen₁ i₀ q₀ hl'
              exact ⟨m', sz', List.mem_append_left _ hm'⟩)
          (fun q₀ m₀ sz₀ i₀ hm₀ => by
            rcases List.mem_append.mp hm₀ with hm₀ | hm₀
            · exact lookup_extend_isSome (hseen₂ _ _ _ _ hm₀)
            · simp only [List.mem_singleton, Prod.mk.injEq, FNode.file.injEq] at hm₀
              obtain ⟨-, -, -, hii⟩ := hm₀
              subst hii
              simp [List.lookup])
        refine ⟨hrec.1, ?_⟩
        rw [hrec.2]
        simp
      | some q =>
        obtain ⟨m', sz', hqmem⟩ := hseen₁ i q hlook
        have hla := hlinks _ (List.mem_append_left _ hqmem) _ hmem
        simp only [linkAgrees, bne_self_eq_false, Bool.false_or, Bool.and_eq_true,
          beq_iff_eq] at hla
        obtain ⟨hm', hsz'⟩ := hla
        rw [hm', hsz'] at hqmem
        have hqdone : fsFind done q = some (FNode.file m sz i) :=
          fsFind_of_mem done hpwDone q _ hqmem
        have hqsc := fsFind_scrub_eq fs done hsim q
        rw [hqdone] at hqsc
        obtain ⟨ι, hfq⟩ := scrub_file_inv hqsc
        have hqnode := hnodes _ (List.mem_append_left _ hqmem)
        simp only [nodeOk, Bool.and_eq_true] at hqnode
        obtain ⟨⟨⟨-, hqValid⟩, -⟩, -⟩ := hqnode
        have hqres : resolveComps [] q = .ok q := by
          simpa using resolveComps_valid q [] hqValid
        have hstep : untarStep defaultOptions [] fs
            { name := p, typeflag := TypeFlag.link, linkname := q, mode := m.mode,
              uid := m.uid, gid := m.gid, size := 0 } =
            .ok (fs ++ [(p, FNode.file m sz ι)]) := by
          rw [untarStep_eq_dispatch defaultOptions [] fs _ p (by simp) hres, hmkp]
          simp only [dispatchEntry, extractOwner_default, List.nil_append, hqres, hfq]
          rw [insertNode_fresh fs p _ hffs]
        simp only [packEntries, packSelect_default, if_true, rebaseName_default,
          packHeaderOwner_default, hlook, untarRun, hstep]
        have hrec := pack_untar_aux rest (done ++ [(p, FNode.file m sz i)])
          (fs ++ [(p, FNode.file m sz ι)]) seen (hwfNext _ rfl)
          (by
            rw [List.map_append, List.map_append, hsim]
            rfl)
          (fun i₀ q₀ hl => by
            obtain ⟨m', sz', hm'⟩ := hseen₁ i₀ q₀ hl
            exact ⟨m', sz', List.mem_append_left _ hm'⟩)
          (fun q₀ m₀ sz₀ i₀ hm₀ => by
            rcases List.mem_append.mp hm₀ with hm₀ | hm₀
            · exact hseen₂ _ _ _ _ hm₀
            · simp only [List.mem_singleton, Prod.mk.injEq, FNode.file.injEq] at hm₀
              obtain ⟨-, -, -, hii⟩ := hm₀
              subst hii
              rw [hlook]
              rfl)
        refine ⟨hrec.1, ?_⟩
        rw [hrec.2]
        simp

/-- **C3 (amended).**  For every well-formed directory tree `T` — sorted walk
order, parents present, inode-consistent hardlinks, and symlink targets that
do not lexically escape the tree root; devices and FIFOs do not occur in the
model — packing `T` with default options and unpacking the stream into an
empty destination succeeds, and the change detector finds no difference
between `T` and the result. -/
theorem tar_untar_roundtrip (T : Fs) (hwf : wfTree T = true) :
    (untarRun defaultOptions [] [] (packWithOptions T defaultOptions)).2 = none ∧
    changesDirs T
      (untarRun defaultOptions [] [] (packWithOptions T defaultOptions)).1 = [] := by
  have h := pack_untar_aux T [] [] [] (by simpa using hwf) rfl
    (fun i q hl => by simp [List.lookup] at hl)
    (fun q m sz i hm => by simp at hm)
  refine ⟨h.1, ?_⟩
  apply changesDirs_eq_nil
  intro p
  have h2 := h.2
  rw [List.nil_append] at h2
  exact (fsFind_scrub_eq _ T h2 p).symm

/-- Witness for C3 (amended): a small tree with a directory, two hardlinked
files (same inode) and a symlink round-trips with no changes. -/
theorem tar_untar_roundtrip_witness :
    wfTree [(["d"], FNode.dir ⟨0o740, 0, 0⟩),
            (["d", "f"], FNode.file ⟨0o600, 0, 0⟩ 4 7),
            (["d", "g"], FNode.file ⟨0o600, 0, 0⟩ 4 7),
            (["s"], FNode.symlink ⟨0o777, 0, 0⟩ ["d", "f"])] = true ∧
    changesDirs [(["d"], FNode.dir ⟨0o740, 0, 0⟩),
            (["d", "f"], FNode.file ⟨0o600, 0, 0⟩ 4 7),
            (["d", "g"], FNode.file ⟨0o600, 0, 0⟩ 4 7),
            (["s"], FNode.symlink ⟨0o777, 0, 0⟩ ["d", "f"])]
      (untarRun defaultOptions [] []
        (packWithOptions [(["d"], FNode.dir ⟨0o740, 0, 0⟩),
            (["d", "f"], FNode.file ⟨0o600, 0, 0⟩ 4 7),
            (["d", "g"], FNode.file ⟨0o600, 0, 0⟩ 4 7),
            (["s"], FNode.symlink ⟨0o777, 0, 0⟩ ["d", "f"])] defaultOptions)).1 =
      [] := by
  refine ⟨by decide, ?_⟩
  exact (tar_untar_roundtrip _ (by decide)).2

/-- Counterexample to C3 as stated: a directory tree containing a symlink
whose target climbs out of the root packs fine, but unpacking the resulting
stream fails with the breakout error (the behavior pinned by
`TestUntarInvalidSymlink`), so the round trip produces differences instead of
none. -/
theorem tar_untar_roundtrip_counterexample :
    (untarRun defaultOptions [] []
      (packWithOptions
        [(["dotdot"], FNode.symlink ⟨0o644, 0, 0⟩ ["..", "victim", "hello"])]
        defaultOptions)).2 = some ArchiveError.breakout ∧
    changesDirs [(["dotdot"], FNode.symlink ⟨0o644, 0, 0⟩ ["..", "victim", "hello"])]
      (untarRun defaultOptions [] []
        (packWithOptions
          [(["dotdot"], FNode.symlink ⟨0o644, 0, 0⟩ ["..", "victim", "hello"])]
          defaultOptions)).1 ≠ [] := by
  constructor
  · rfl
  · decide

/-! ## The rebase quirk (C8) -/

/-- A second reading of §4.D step 2, following the spec's words that a
matching path is emitted BOTH under its original name and under the rebased
name ("RebaseNames doubles the entries that match").  Kept only to compare
against the behavior the test-suite pins down. -/
def packEntriesDoubling (opts : TarOptions) : List (Nat × Path) → Fs → List Entry
  | _, [] => []
  | seen, (p, n) :: rest =>
    if packSelect opts p then
      let names := if rebaseName opts p = p then [p] else [p, rebaseName opts p]
      match n with
      | .dir m =>
        (names.map fun nm =>
          { name := nm, typeflag := .dir, mode := m.mode,
            uid := (packHeaderOwner opts m).1, gid := (packHeaderOwner opts m).2 }) ++
          packEntriesDoubling opts seen rest
      | .symlink m tgt =>
        (names.map fun nm =>
          { name := nm, typeflag := .symlink, linkname := tgt, mode := m.mode,
            uid := (packHeaderOwner opts m).1, gid := (packHeaderOwner opts m).2 }) ++
          packEntriesDoubling opts seen rest
      | .file m sz i =>
        match seen.lookup i with
        | some q =>
          (names.map fun nm =>
            { name := nm, typeflag := .link, linkname := q, mode := m.mode,
              uid := (packHeaderOwner opts m).1, gid := (packHeaderOwner opts m).2,
              size := 0 }) ++ packEntriesDoubling opts seen rest
        | none =>
          (names.map fun nm =>
            { name := nm, typeflag := .reg, mode := m.mode,
              uid := (packHeaderOwner opts m).1, gid := (packHeaderOwner opts m).2,
              size := sz }) ++
            packEntriesDoubling opts ((i, rebaseName opts p) :: seen) rest
    else packEntriesDoubling opts seen rest

/-- The doubling reading of `TarWithOptions`. -/
def packWithOptionsDoubling (fs : Fs) (opts : TarOptions) : List Entry :=
  packEntriesDoubling opts [] fs

/-- The packer emits exactly one entry per selected node. -/
theorem packEntries_length (opts : TarOptions) :
    ∀ (fs : Fs) (seen : List (Nat × Path)),
      (packEntries opts seen fs).length =
        (fs.filter fun pn => packSelect opts pn.1).length
  | [], _ => rfl
  | (p, n) :: rest, seen => by
    have hfilter : (((p, n) :: rest).filter fun pn => packSelect opts pn.1) =
        if packSelect opts p then
          (p, n) :: (rest.filter fun pn => packSelect opts pn.1)
        else rest.filter fun pn => packSelect opts pn.1 := by
      simp [List.filter_cons]
    rw [hfilter]
    by_cases hsel : packSelect opts p = true
    · rw [if_pos hsel]
      cases n with
      | dir m =>
        simp only [packEntries, hsel, if_true, List.length_cons,
          packEntries_length opts rest seen]
      | symlink m tgt =>
        simp only [packEntries, hsel, if_true, List.length_cons,
          packEntries_length opts rest seen]
      | file m sz i =>
        cases hlook : List.lookup i seen with
        | none =>
          simp only [packEntries, hsel, if_true, hlook, List.length_cons,
            packEntries_length opts rest ((i, rebaseName opts p) :: seen)]
        | some q =>
          simp only [packEntries, hsel, if_true, hlook, List.length_cons,
            packEntries_length opts rest seen]
    · have hsel2 : packSelect opts p = false := by simpa using hsel
      rw [if_neg hsel]
      cases n <;>
        simp only [packEntries, hsel2, Bool.false_eq_true, if_false] <;>
        exact packEntries_length opts rest seen

/-- Counterexample to C8 as stated: under the doubling reading the claim's
own concrete scenario (three-node directory, `include_files=["1"]`,
`rebase_names={"1":"test"}`) emits entries `1` and `test` and yields only 3
changes against the original, contradicting the 4 changes that
`TestTarWithOptions` requires; the two halves of the claim are jointly
unsatisfiable. -/
theorem rebase_doubling_counterexample :
    (packWithOptionsDoubling
      [(["1"], FNode.file ⟨0o700, 0, 0⟩ 11 1),
       (["2"], FNode.file ⟨0o700, 0, 0⟩ 8 2),
       (["folder"], FNode.dir ⟨0o700, 0, 0⟩)]
      { includeFiles := [["1"]],
        rebaseNames := [(["1"], ["test"])] }).map Entry.name = [["1"], ["test"]] ∧
    (changesDirs
      [(["1"], FNode.file ⟨0o700, 0, 0⟩ 11 1),
       (["2"], FNode.file ⟨0o700, 0, 0⟩ 8 2),
       (["folder"], FNode.dir ⟨0o700, 0, 0⟩)]
      (untarRun defaultOptions [] []
        (packWithOptionsDoubling
          [(["1"], FNode.file ⟨0o700, 0, 0⟩ 11 1),
           (["2"], FNode.file ⟨0o700, 0, 0⟩ 8 2),
           (["folder"], FNode.dir ⟨0o700, 0, 0⟩)]
          { includeFiles := [["1"]],
            rebaseNames := [(["1"], ["test"])] })).1).length = 3 ∧
    (3 : Nat) ≠ 4 := by
  refine ⟨by decide, by decide, by decide⟩

/-- **C8 (amended).**  An active `RebaseNames` rule replaces the matching
prefix in the emitted name: every selected node is emitted exactly once
(packer output length equals the number of selected nodes), and the claim's
concrete scenario — three-node directory packed with `include_files=["1"]`
and `rebase_names={"1":"test"}`, then unpacked and diffed against the
original — emits the single entry `test` and yields exactly 4 changes. -/
theorem rebase_single_emission :
    (∀ (opts : TarOptions) (fs : Fs) (seen : List (Nat × Path)),
      (packEntries opts seen fs).length =
        (fs.filter fun pn => packSelect opts pn.1).length) ∧
    (packWithOptions
      [(["1"], FNode.file ⟨0o700, 0, 0⟩ 11 1),
       (["2"], FNode.file ⟨0o700, 0, 0⟩ 8 2),
       (["folder"], FNode.dir ⟨0o700, 0, 0⟩)]
      { includeFiles := [["1"]],
        rebaseNames := [(["1"], ["test"])] }).map Entry.name = [["test"]] ∧
    changesDirs
      [(["1"], FNode.file ⟨0o700, 0, 0⟩ 11 1),
       (["2"], FNode.file ⟨0o700, 0, 0⟩ 8 2),
       (["folder"], FNode.dir ⟨0o700, 0, 0⟩)]
      (untarRun defaultOptions [] []
        (packWithOptions
          [(["1"], FNode.file ⟨0o700, 0, 0⟩ 11 1),
           (["2"], FNode.file ⟨0o700, 0, 0⟩ 8 2),
           (["folder"], FNode.dir ⟨0o700, 0, 0⟩)]
          { includeFiles := [["1"]],
            rebaseNames := [(["1"], ["test"])] })).1 =
      [⟨["1"], .add⟩, ⟨["2"], .add⟩, ⟨["folder"], .add⟩, ⟨["test"], .delete⟩] := by
  refine ⟨fun opts fs seen => packEntries_length opts fs seen, by decide, by decide⟩

/-! ## Layer whiteouts (§4.E step 7, §4.H) -/

/-- **C4.**  During layer application, for an entry whose parents already
exist: a basename `.wh.<name>` (other than the opaque marker) removes
exactly the existing sibling subtree `<name>` and touches nothing else — in
particular the marker's own path stays exactly as it was, so the marker is
not materialized; a basename `.wh..wh..opq` removes exactly the existing
children of its containing directory that this layer has not itself
unpacked, the directory itself and the marker path included among the
untouched paths. -/
theorem unpack_layer_whiteouts (opts : TarOptions) (dest : Path) (fs : Fs)
    (unpacked : List Path) (e : Entry) (stack : List String)
    (hg : ¬e.typeflag = TypeFlag.xGlobalHeader)
    (hres : resolveSub e.name = .ok stack)
    (hpar : mkParents opts fs dest stack = fs) :
    (∀ stem b name, stack = stem ++ [b] → b = ".wh." ++ name →
      ¬b = ".wh..wh..opq" →
      unpackLayerStep opts dest fs unpacked e =
        .ok (removeSubtree fs (dest ++ stem ++ [name]), unpacked) ∧
      ∀ q, fsFind (removeSubtree fs (dest ++ stem ++ [name])) q =
        if (dest ++ stem ++ [name]).isPrefixOf q then none else fsFind fs q) ∧
    (∀ stem, stack = stem ++ [".wh..wh..opq"] →
      ∃ fs', unpackLayerStep opts dest fs unpacked e = .ok (fs', unpacked) ∧
        ∀ q, fsFind fs' q =
          if (dest ++ stem) <+: q ∧ q ≠ dest ++ stem ∧ q ∉ unpacked
          then none else fsFind fs q) := by
  constructor
  · intro stem b name hstack hb hbopq
    have hwh : isWhiteout b = true := by
      rw [hb, isWhiteout]
      rw [String.data_append ".wh." name]
      exact List.isPrefixOf_iff_prefix.mpr (List.prefix_append _ _)
    have htgt : whTarget b = name := by
      rw [hb, whTarget]
      rw [String.data_append ".wh." name]
      have hlen : (whPrefix.data.length : Nat) = (".wh.".data : List Char).length := rfl
      rw [hlen, List.drop_left]
    have hlast : stack.getLast? = some b := by
      rw [hstack, List.getLast?_append]
      rfl
    constructor
    · rw [unpackLayerStep, if_neg hg, hres]
      simp only [hlast, hpar]
      rw [if_neg (by rw [hb] at hbopq ⊢; exact fun h => hbopq (h ▸ rfl)), if_pos hwh]
      rw [htgt, hstack]
      have hdl : (dest ++ (stem ++ [b])).dropLast = dest ++ stem := by
        rw [← List.append_assoc, List.dropLast_concat]
      rw [hdl]
    · intro q
      rw [fsFind_removeSubtree]
  · intro stem hstack
    have hlast : stack.getLast? = some ".wh..wh..opq" := by
      rw [hstack, List.getLast?_append]
      rfl
    have hdl : (dest ++ (stem ++ [".wh..wh..opq"])).dropLast = dest ++ stem := by
      rw [← List.append_assoc, List.dropLast_concat]
    have hlast2 : stack.getLast? = some whOpaque := hlast
    refine ⟨fs.filter fun qn =>
        !(decide ((dest ++ stem) <+: qn.1) && !(decide (qn.1 = dest ++ stem)) &&
          !(decide (qn.1 ∈ unpacked))), ?_, ?_⟩
    · rw [unpackLayerStep, if_neg hg, hres]
      simp only [hlast2]
      rw [if_pos trivial]
      simp only [hpar]
      rw [hstack, hdl]
    · intro q
      rw [fsFind_filter_key (fun r =>
        !(decide ((dest ++ stem) <+: r) && !(decide (r = dest ++ stem)) &&
          !(decide (r ∈ unpacked)))) fs q]
      by_cases h1 : (dest ++ stem) <+: q
      · by_cases h2 : q = dest ++ stem
        · rw [if_pos (by simp [h2, List.prefix_rfl]), if_neg (fun hcon => hcon.2.1 h2)]
        · by_cases h3 : q ∈ unpacked
          · rw [if_pos (by simp [h1, h2, h3]), if_neg (fun hcon => hcon.2.2 h3)]
          · rw [if_neg (by simp [h1, h2, h3]), if_pos ⟨h1, h2, h3⟩]
      · rw [if_pos (by simp [h1]), if_neg (fun hcon => h1 hcon.1)]

/-- Witness for C4: the `.wh.baz` sibling whiteout and the
`foo/.wh..wh..opq` opaque marker of `TestApplyLayerWhiteouts`: the whiteout
deletes `baz` but not `.baz`, and the opaque marker deletes the base child
`foo/.abc` while sparing this layer's own `foo/.bce` and `foo` itself. -/
theorem unpack_layer_whiteouts_witness :
    unpackLayerStep defaultOptions []
      [(["baz"], FNode.file ⟨0o600, 0, 0⟩ 0 1),
       ([".baz"], FNode.file ⟨0o600, 0, 0⟩ 0 2)] []
      { name := [".wh.baz"], typeflag := TypeFlag.reg, mode := 0o600 } =
      .ok ([([".baz"], FNode.file ⟨0o600, 0, 0⟩ 0 2)], []) ∧
    (∃ fs', unpackLayerStep defaultOptions []
        [(["foo"], FNode.dir ⟨0o700, 0, 0⟩),
         (["foo", ".abc"], FNode.file ⟨0o600, 0, 0⟩ 0 1),
         (["foo", ".bce"], FNode.file ⟨0o600, 0, 0⟩ 0 2)] [["foo", ".bce"]]
        { name := ["foo", ".wh..wh..opq"], typeflag := TypeFlag.reg, mode := 0o600 } =
        .ok (fs', [["foo", ".bce"]]) ∧
      fsFind fs' ["foo", ".abc"] = none ∧
      fsFind fs' ["foo", ".bce"] = some (FNode.file ⟨0o600, 0, 0⟩ 0 2) ∧
      fsFind fs' ["foo"] = some (FNode.dir ⟨0o700, 0, 0⟩)) := by
  constructor
  · have h := (unpack_layer_whiteouts defaultOptions []
      [(["baz"], FNode.file ⟨0o600, 0, 0⟩ 0 1),
       ([".baz"], FNode.file ⟨0o600, 0, 0⟩ 0 2)]
      [] { name := [".wh.baz"], typeflag := TypeFlag.reg, mode := 0o600 }
      [".wh.baz"] (by decide) rfl rfl).1 [] ".wh.baz" "baz" rfl rfl (by decide)
    rw [h.1]
    rfl
  · have h := (unpack_layer_whiteouts defaultOptions []
      [(["foo"], FNode.dir ⟨0o700, 0, 0⟩),
       (["foo", ".abc"], FNode.file ⟨0o600, 0, 0⟩ 0 1),
       (["foo", ".bce"], FNode.file ⟨0o600, 0, 0⟩ 0 2)] [["foo", ".bce"]]
      { name := ["foo", ".wh..wh..opq"], typeflag := TypeFlag.reg, mode := 0o600 }
      ["foo", ".wh..wh..opq"] (by decide) rfl rfl).2 ["foo"] rfl
    obtain ⟨fs', hstep, hpt⟩ := h
    refine ⟨fs', hstep, ?_, ?_, ?_⟩
    · rw [hpt ["foo", ".abc"]]
      rw [if_pos]
      refine ⟨?_, ?_, ?_⟩ <;> decide
    · rw [hpt ["foo", ".bce"]]
      rw [if_neg]
      · rfl
      · intro hcon
        exact hcon.2.2 (by decide)
    · rw [hpt ["foo"]]
      rw [if_neg]
      · rfl
      · intro hcon
        exact hcon.2.1 rfl

/-! ## The layer exporter (§4.G) -/

/-- Modelled from the spec: §4.G — one header per change of the (sorted)
change list: Add and Modify become the node's entry, with hardlink
deduplication by inode as in the packer; Delete becomes a zero-byte regular
whiteout entry `<dir>/.wh.<basename>`; changes whose path is no longer
present in the root are skipped. -/
def exportGo (root : Fs) : List (Nat × Path) → List Change → List Entry
  | _, [] => []
  | seen, c :: rest =>
    match c.kind with
    | .delete =>
      match c.path.getLast? with
      | some b =>
        { name := c.path.dropLast ++ [whPrefix ++ b], typeflag := .reg, size := 0 } ::
          exportGo root seen rest
      | none => exportGo root seen rest
    | _ =>
      match fsFind root c.path with
      | some (.dir m) =>
        { name := c.path, typeflag := .dir, mode := m.mode,
          uid := m.uid, gid := m.gid } :: exportGo root seen rest
      | some (.symlink m tgt) =>
        { name := c.path, typeflag := .symlink, linkname := tgt, mode := m.mode,
          uid := m.uid, gid := m.gid } :: exportGo root seen rest
      | some (.file m sz i) =>
        match seen.lookup i with
        | some q =>
          { name := c.path, typeflag := .link, linkname := q, mode := m.mode,
            uid := m.uid, gid := m.gid, size := 0 } :: exportGo root seen rest
        | none =>
          { name := c.path, typeflag := .reg, mode := m.mode,
            uid := m.uid, gid := m.gid, size := sz } ::
            exportGo root ((i, c.path) :: seen) rest
      | none => exportGo root seen rest

/-- The change stream is always sorted by path before consumption (§3). -/
def sortChanges (cs : List Change) : List Change :=
  cs.insertionSort fun a b => pathLe a.path b.path

/-- Modelled from the spec: `ExportChanges` — sort the change list by path,
then emit the headers. -/
def exportChanges (root : Fs) (changes : List Change) : List Entry :=
  exportGo root [] (sortChanges changes)

/-- **C9.**  `ExportChanges` is deterministic with respect to change-list
ordering: for every root and every pair of change lists that are
permutations of each other with pairwise-distinct paths (in particular a
list sorted ascending versus the same list sorted descending), the exported
header streams are identical — hence they agree pairwise on Name, Size,
Typeflag and Linkname however they are re-sorted. -/
theorem export_changes_order_stable (root : Fs) (C₁ C₂ : List Change)
    (hperm : C₁.Perm C₂) (hnd : (C₁.map Change.path).Nodup) :
    exportChanges root C₁ = exportChanges root C₂ := by
  haveI hTot : IsTotal Change fun a b => pathLe a.path b.path := ⟨fun a b => by
    rcases trichotomous_of (List.Lex strLt) a.path b.path with h | h | h
    · exact .inl (.inl h)
    · exact .inl (.inr h)
    · exact .inr (.inl h)⟩
  haveI hTr : IsTrans Change fun a b => pathLe a.path b.path := ⟨fun a b c hab hbc => by
    rcases hab with hab | hab
    · rcases hbc with hbc | hbc
      · exact .inl (IsTrans.trans _ _ _ hab hbc)
      · exact .inl (hbc ▸ hab)
    · rcases hbc with hbc | hbc
      · exact .inl (hab ▸ hbc)
      · exact .inr (hab.trans hbc)⟩
  haveI hAnti : IsAntisymm Change fun a b => pathLt a.path b.path :=
    ⟨fun a b h1 h2 => absurd h1 (asymm_of (List.Lex strLt) h2)⟩
  suffices hs : sortChanges C₁ = sortChanges C₂ by
    unfold exportChanges
    rw [hs]
  have hp₁ : (sortChanges C₁).Perm C₁ := List.perm_insertionSort _ C₁
  have hp₂ : (sortChanges C₂).Perm C₂ := List.perm_insertionSort _ C₂
  have hp : (sortChanges C₁).Perm (sortChanges C₂) :=
    (hp₁.trans hperm).trans hp₂.symm
  have hndC₂ : (C₂.map Change.path).Nodup := (hperm.map Change.path).nodup_iff.mp hnd
  have hnd₁ : List.Pairwise (fun a b : Change => a.path ≠ b.path) (sortChanges C₁) :=
    (hp₁.pairwise_iff fun h => Ne.symm h).mpr (List.pairwise_map.mp hnd)
  have hnd₂ : List.Pairwise (fun a b : Change => a.path ≠ b.path) (sortChanges C₂) :=
    (hp₂.pairwise_iff fun h => Ne.symm h).mpr (List.pairwise_map.mp hndC₂)
  have hs₁ : List.Pairwise (fun a b : Change => pathLt a.path b.path) (sortChanges C₁) := by
    have hsorted := List.sorted_insertionSort (fun a b => pathLe a.path b.path) C₁
    exact (hsorted.and hnd₁).imp fun hab => by
      rcases hab.1 with h | h
      · exact h
      · exact absurd h hab.2
  have hs₂ : List.Pairwise (fun a b : Change => pathLt a.path b.path) (sortChanges C₂) := by
    have hsorted := List.sorted_insertionSort (fun a b => pathLe a.path b.path) C₂
    exact (hsorted.and hnd₂).imp fun hab => by
      rcases hab.1 with h | h
      · exact h
      · exact absurd h hab.2
  exact List.eq_of_perm_of_sorted hp hs₁ hs₂

/-- Witness for C9: two hardlinked files exported once in ascending and once
in descending path order produce identical header streams. -/
theorem export_changes_order_stable_witness :
    exportChanges
      [(["file1.txt"], FNode.file ⟨0o666, 0, 0⟩ 9 5),
       (["file2.txt"], FNode.file ⟨0o666, 0, 0⟩ 9 5)]
      [⟨["file1.txt"], .add⟩, ⟨["file2.txt"], .add⟩] =
    exportChanges
      [(["file1.txt"], FNode.file ⟨0o666, 0, 0⟩ 9 5),
       (["file2.txt"], FNode.file ⟨0o666, 0, 0⟩ 9 5)]
      [⟨["file2.txt"], .add⟩, ⟨["file1.txt"], .add⟩] := by
  refine export_changes_order_stable _ _ _ ?_ ?_
  · decide
  · decide

end GoArchive
